import Mathlib

/-!
Verification of the Gaussian-process prediction utilities of the
safe-exploration repository.

The development shallowly embeds two source files:

* gp_ellipsoidal_reachability/gp_models_utils_casadi.py — kernel evaluation
  (RBF, linear, product), posterior mean/variance (gp_pred), kernel dispatch
  (_get_kernel_function) and the multi-output wrapper (gp_pred_function);
* safe_exploration/ssm_pytorch/gaussian_process.py — the GPytorchSSM methods
  predict and linearize_predict and MultiOutputGP.set_train_data.

A casadi SX/DM value is a dynamically shaped real matrix, so the embedding
uses a matrix type whose dimensions are data.  Entries outside the stated
dimensions are normalised to zero.  The external autodiff engine (the casadi
jacobian machinery, and compute_jacobian on the torch side) is modelled as an
abstract function parameter, since its implementation is outside the sources.
-/

/-- A dynamically shaped real matrix, modelling a casadi SX/DM value (and,
on the torch side, a tensor).  Dimensions are data; entries outside the
stated dimensions are normalised to zero by every constructor below. -/
structure Mat where
  rows : Nat
  cols : Nat
  entry : Nat → Nat → ℝ

namespace Mat

/-- Build an r by c matrix from an entry function, masking entries outside
the range to zero. -/
def of (r c : Nat) (f : Nat → Nat → ℝ) : Mat :=
  ⟨r, c, fun i j => if i < r ∧ j < c then f i j else 0⟩

@[simp] theorem of_rows (r c : Nat) (f : Nat → Nat → ℝ) : (of r c f).rows = r := rfl

@[simp] theorem of_cols (r c : Nat) (f : Nat → Nat → ℝ) : (of r c f).cols = c := rfl

theorem of_entry {r c i j : Nat} (f : Nat → Nat → ℝ) (hi : i < r) (hj : j < c) :
    (of r c f).entry i j = f i j := by
  simp [of, hi, hj]

theorem of_entry_out {r c i j : Nat} (f : Nat → Nat → ℝ) (h : ¬(i < r ∧ j < c)) :
    (of r c f).entry i j = 0 := by
  simp only [of]
  exact if_neg h

theorem of_congr {r c : Nat} {f g : Nat → Nat → ℝ}
    (h : ∀ i j, i < r → j < c → f i j = g i j) : of r c f = of r c g := by
  unfold of
  congr 1
  funext i j
  by_cases hij : i < r ∧ j < c
  · simp only [hij, if_true, h i j hij.1 hij.2]
  · simp only [hij, if_false]

/-- The empty (0 by 0) matrix, modelling an empty python list passed to a
casadi concatenation. -/
def empty : Mat := of 0 0 fun _ _ => 0

@[simp] theorem empty_rows : empty.rows = 0 := rfl

@[simp] theorem empty_cols : empty.cols = 0 := rfl

/-- Matrix transpose (casadi .T). -/
def transpose (a : Mat) : Mat := of a.cols a.rows fun i j => a.entry j i

@[simp] theorem transpose_rows (a : Mat) : (transpose a).rows = a.cols := rfl

@[simp] theorem transpose_cols (a : Mat) : (transpose a).cols = a.rows := rfl

theorem transpose_entry {a : Mat} {i j : Nat} (hi : i < a.cols) (hj : j < a.rows) :
    (transpose a).entry i j = a.entry j i :=
  of_entry _ hi hj

/-- Matrix product (casadi mtimes).  The inner dimension is taken from the
left factor, as the sources only multiply conforming matrices. -/
def mtimes (a b : Mat) : Mat :=
  of a.rows b.cols fun i j => ∑ k ∈ Finset.range a.cols, a.entry i k * b.entry k j

@[simp] theorem mtimes_rows (a b : Mat) : (mtimes a b).rows = a.rows := rfl

@[simp] theorem mtimes_cols (a b : Mat) : (mtimes a b).cols = b.cols := rfl

theorem mtimes_entry {a b : Mat} {i j : Nat} (hi : i < a.rows) (hj : j < b.cols) :
    (mtimes a b).entry i j = ∑ k ∈ Finset.range a.cols, a.entry i k * b.entry k j :=
  of_entry _ hi hj

/-- Row sums (casadi sum2): sum across the second dimension, giving a column. -/
def sum2 (a : Mat) : Mat :=
  of a.rows 1 fun i _ => ∑ j ∈ Finset.range a.cols, a.entry i j

@[simp] theorem sum2_rows (a : Mat) : (sum2 a).rows = a.rows := rfl

@[simp] theorem sum2_cols (a : Mat) : (sum2 a).cols = 1 := rfl

theorem sum2_entry {a : Mat} {i : Nat} (hi : i < a.rows) :
    (sum2 a).entry i 0 = ∑ j ∈ Finset.range a.cols, a.entry i j :=
  of_entry _ hi Nat.one_pos

/-- Elementwise map (casadi exp, sqrt and the elementwise power). -/
def emap (f : ℝ → ℝ) (a : Mat) : Mat :=
  of a.rows a.cols fun i j => f (a.entry i j)

@[simp] theorem emap_rows (f : ℝ → ℝ) (a : Mat) : (emap f a).rows = a.rows := rfl

@[simp] theorem emap_cols (f : ℝ → ℝ) (a : Mat) : (emap f a).cols = a.cols := rfl

theorem emap_of (f : ℝ → ℝ) (r c : Nat) (g : Nat → Nat → ℝ) :
    emap f (of r c g) = of r c fun i j => f (g i j) := by
  unfold emap
  simp only [of_rows, of_cols]
  exact of_congr fun i j hi hj => by rw [of_entry _ hi hj]

/-- Scalar times matrix. -/
def smul (c : ℝ) (a : Mat) : Mat :=
  of a.rows a.cols fun i j => c * a.entry i j

@[simp] theorem smul_rows (c : ℝ) (a : Mat) : (smul c a).rows = a.rows := rfl

@[simp] theorem smul_cols (c : ℝ) (a : Mat) : (smul c a).cols = a.cols := rfl

theorem smul_of (s : ℝ) (r c : Nat) (g : Nat → Nat → ℝ) :
    smul s (of r c g) = of r c fun i j => s * g i j := by
  unfold smul
  simp only [of_rows, of_cols]
  exact of_congr fun i j hi hj => by rw [of_entry _ hi hj]

/-- Elementwise binary operation.  As in casadi, shapes must agree or one
operand must be scalar (1 by 1); any other combination is a shape error,
modelled by the empty matrix. -/
def ew (f : ℝ → ℝ → ℝ) (a b : Mat) : Mat :=
  if a.rows = b.rows ∧ a.cols = b.cols then
    of a.rows a.cols fun i j => f (a.entry i j) (b.entry i j)
  else if a.rows = 1 ∧ a.cols = 1 then
    of b.rows b.cols fun i j => f (a.entry 0 0) (b.entry i j)
  else if b.rows = 1 ∧ b.cols = 1 then
    of a.rows a.cols fun i j => f (a.entry i j) (b.entry 0 0)
  else
    empty

theorem ew_same (f : ℝ → ℝ → ℝ) {a b : Mat} (hr : a.rows = b.rows) (hc : a.cols = b.cols) :
    ew f a b = of a.rows a.cols fun i j => f (a.entry i j) (b.entry i j) := by
  unfold ew
  rw [if_pos ⟨hr, hc⟩]

theorem ew_mismatch (f : ℝ → ℝ → ℝ) {a b : Mat}
    (h1 : ¬(a.rows = b.rows ∧ a.cols = b.cols))
    (h2 : ¬(a.rows = 1 ∧ a.cols = 1)) (h3 : ¬(b.rows = 1 ∧ b.cols = 1)) :
    ew f a b = empty := by
  unfold ew
  rw [if_neg h1, if_neg h2, if_neg h3]

theorem ew_scalar_left (f : ℝ → ℝ → ℝ) {a b : Mat}
    (h1 : ¬(a.rows = b.rows ∧ a.cols = b.cols)) (h2 : a.rows = 1) (h3 : a.cols = 1) :
    ew f a b = of b.rows b.cols fun i j => f (a.entry 0 0) (b.entry i j) := by
  unfold ew
  rw [if_neg h1, if_pos ⟨h2, h3⟩]

/-- Elementwise addition. -/
noncomputable def eadd : Mat → Mat → Mat := ew (· + ·)

/-- Elementwise subtraction. -/
noncomputable def esub : Mat → Mat → Mat := ew (· - ·)

/-- Elementwise (Hadamard) multiplication. -/
noncomputable def emul : Mat → Mat → Mat := ew (· * ·)

/-- Elementwise division. -/
noncomputable def ediv : Mat → Mat → Mat := ew (· / ·)

/-- Tiling (casadi repmat): tile m times vertically and n times horizontally. -/
def repmat (a : Mat) (m n : Nat) : Mat :=
  of (m * a.rows) (n * a.cols) fun i j => a.entry (i % a.rows) (j % a.cols)

@[simp] theorem repmat_rows (a : Mat) (m n : Nat) : (repmat a m n).rows = m * a.rows := rfl

@[simp] theorem repmat_cols (a : Mat) (m n : Nat) : (repmat a m n).cols = n * a.cols := rfl

theorem repmat_entry {a : Mat} {m n i j : Nat} (hi : i < m * a.rows) (hj : j < n * a.cols) :
    (repmat a m n).entry i j = a.entry (i % a.rows) (j % a.cols) :=
  of_entry _ hi hj

/-- Column i of a matrix (python beta[:, i]). -/
def colOf (a : Mat) (i : Nat) : Mat :=
  of a.rows 1 fun r _ => a.entry r i

@[simp] theorem colOf_rows (a : Mat) (i : Nat) : (colOf a i).rows = a.rows := rfl

@[simp] theorem colOf_cols (a : Mat) (i : Nat) : (colOf a i).cols = 1 := rfl

theorem colOf_entry {a : Mat} {i r : Nat} (hr : r < a.rows) :
    (colOf a i).entry r 0 = a.entry r i :=
  of_entry _ hr Nat.one_pos

/-- Horizontal concatenation (casadi horzcat); an empty operand is dropped,
as when python passes an empty list accumulator. -/
def horzcat (a b : Mat) : Mat :=
  if a.rows = 0 ∧ a.cols = 0 then b
  else if b.rows = 0 ∧ b.cols = 0 then a
  else of a.rows (a.cols + b.cols) fun i j =>
    if j < a.cols then a.entry i j else b.entry i (j - a.cols)

/-- Vertical concatenation (casadi vertcat); an empty operand is dropped. -/
def vertcat (a b : Mat) : Mat :=
  if a.rows = 0 ∧ a.cols = 0 then b
  else if b.rows = 0 ∧ b.cols = 0 then a
  else of (a.rows + b.rows) a.cols fun i j =>
    if i < a.rows then a.entry i j else b.entry (i - a.rows) j

theorem horzcat_empty_left (b : Mat) : horzcat empty b = b := by
  unfold horzcat
  rw [if_pos ⟨empty_rows, empty_cols⟩]

theorem vertcat_empty_left (b : Mat) : vertcat empty b = b := by
  unfold vertcat
  rw [if_pos ⟨empty_rows, empty_cols⟩]

theorem horzcat_of_ne {a b : Mat} (ha : ¬(a.rows = 0 ∧ a.cols = 0))
    (hb : ¬(b.rows = 0 ∧ b.cols = 0)) :
    horzcat a b = of a.rows (a.cols + b.cols) fun i j =>
      if j < a.cols then a.entry i j else b.entry i (j - a.cols) := by
  unfold horzcat
  rw [if_neg ha, if_neg hb]

theorem vertcat_of_ne {a b : Mat} (ha : ¬(a.rows = 0 ∧ a.cols = 0))
    (hb : ¬(b.rows = 0 ∧ b.cols = 0)) :
    vertcat a b = of (a.rows + b.rows) a.cols fun i j =>
      if i < a.rows then a.entry i j else b.entry (i - a.rows) j := by
  unfold vertcat
  rw [if_neg ha, if_neg hb]

end Mat

/-!
Embedding of gp_ellipsoidal_reachability/gp_models_utils_casadi.py.

The hyperparameter dictionary carries numpy vectors; the code reshapes them
to one-row matrices before use, so they are modelled as one-row matrices.
-/

/-- GP hyperparameters (the python hyp dictionary).  The vectors
rbf_lengthscales and lin_variances are stored as one-row matrices, matching
the reshape to shape (1, -1) performed at every use site. -/
structure Hyp where
  rbf_lengthscales : Mat
  rbf_variance : ℝ
  lin_variances : Mat

/-- The shared signature of the kernel evaluation functions:
arguments x, hyp, y (None modelled as Option.none, the python default) and
diag_only (python default False); the defaults are spelled out at call
sites. -/
abbrev KernFun := Mat → Hyp → Option Mat → Bool → Mat

/-- Squared-distance helper _unscaled_dist (lines 69 to 83): computes
r2 = -2 x yT + repmat(x1sq, 1, n_y) + repmat(x2sqT, n_x, 1) and returns its
elementwise square root. -/
noncomputable def _unscaled_dist (x y : Mat) : Mat :=
  let x1sq := Mat.sum2 (Mat.emap (fun t => t ^ 2) x)
  let x2sq := Mat.sum2 (Mat.emap (fun t => t ^ 2) y)
  let r2 := Mat.eadd
    (Mat.eadd (Mat.smul (-2) (Mat.mtimes x (Mat.transpose y))) (Mat.repmat x1sq 1 y.rows))
    (Mat.repmat (Mat.transpose x2sq) x.rows 1)
  Mat.emap Real.sqrt r2

/-- RBF kernel _k_rbf (lines 15 to 38).  In the diag_only branch the source
runs ret = SX(T,) followed by ret[:] = precision.  SX(T,) is SX(T), the
casadi scalar constructor, which builds a 1 by 1 constant (value T); the
fill then overwrites its single entry, so the branch returns the 1 by 1
matrix holding rbf_variance (casadi broadcasts this scalar downstream). -/
noncomputable def _k_rbf (x : Mat) (hyp : Hyp) (y : Option Mat)
    (diag_only : Bool) : Mat :=
  if diag_only then Mat.of 1 1 fun _ _ => hyp.rbf_variance
  else
    let y := y.getD x
    let lens_x := Mat.repmat hyp.rbf_lengthscales x.rows 1
    let lens_y := Mat.repmat hyp.rbf_lengthscales y.rows 1
    let r := _unscaled_dist (Mat.ediv x lens_x) (Mat.ediv y lens_y)
    Mat.smul hyp.rbf_variance
      (Mat.emap Real.exp (Mat.smul (-(1 / 2)) (Mat.emap (fun t => t ^ 2) r)))

/-- Linear kernel _k_lin (lines 52 to 66).  Note that the source body never
reads diag_only: it always returns the full n_x by n_y matrix. -/
noncomputable def _k_lin (x : Mat) (hyp : Hyp) (y : Option Mat)
    (diag_only : Bool) : Mat :=
  let var := hyp.lin_variances
  let var_x := Mat.emap Real.sqrt (Mat.repmat var x.rows 1)
  match y with
  | none => Mat.mtimes (Mat.emul x var_x) (Mat.transpose (Mat.emul x var_x))
  | some y =>
      let var_y := Mat.emap Real.sqrt (Mat.repmat var y.rows 1)
      Mat.mtimes (Mat.emul x var_x) (Mat.transpose (Mat.emul y var_y))

/-- Product kernel _k_prod_lin_rbf (lines 41 to 49): the elementwise product
of the RBF and the linear kernel evaluations, both called with the same
diag_only flag. -/
noncomputable def _k_prod_lin_rbf (x : Mat) (hyp : Hyp) (y : Option Mat)
    (diag_only : Bool) : Mat :=
  Mat.emul (_k_rbf x hyp y diag_only) (_k_lin x hyp y diag_only)

/-- Posterior prediction gp_pred (lines 86 to 105).  The python function
returns the mean alone, or the pair (mean, variance); both cases are carried
in a pair whose second component is optional.  Raising ValueError is
modelled as Except.error. -/
noncomputable def gp_pred (x : Mat) (kern : KernFun) (beta x_train : Mat) (hyp : Hyp)
    (k_inv_training : Option Mat := none) (pred_var : Bool := true) :
    Except String (Mat × Option Mat) :=
  let k_star := kern x hyp (some x_train) false
  let pred_mu := Mat.mtimes k_star beta
  if pred_var then
    match k_inv_training with
    | none =>
        Except.error "The inverted kernel matrix is required for computing the predictive variance"
    | some k_inv =>
        let k_expl_var := kern x hyp none true
        let pred_sigm := Mat.esub k_expl_var
          (Mat.sum2 (Mat.emul (Mat.mtimes k_star k_inv) k_star))
        Except.ok (pred_mu, some pred_sigm)
  else
    Except.ok (pred_mu, none)

/-- Kernel dispatch _get_kernel_function (lines 108 to 127). -/
noncomputable def _get_kernel_function (kern_type : String) : Except String KernFun :=
  if kern_type = "rbf" then Except.ok _k_rbf
  else if kern_type = "prod_lin_rbf" then Except.ok _k_prod_lin_rbf
  else Except.error "Unknown kernel type"

/-- The posterior mean expression of a single-output GP, as built inside
gp_pred: K_star times beta. -/
noncomputable def gpMean (x : Mat) (kern : KernFun) (beta x_train : Mat) (hyp : Hyp) : Mat :=
  Mat.mtimes (kern x hyp (some x_train) false) beta

/-- The posterior variance expression of a single-output GP, as built inside
gp_pred: the diag_only kernel output minus the row sums of
(K_star K_inv) ∘ K_star. -/
noncomputable def gpSigma (x : Mat) (kern : KernFun) (beta x_train : Mat) (hyp : Hyp)
    (k_inv : Mat) : Mat :=
  Mat.esub (kern x hyp none true)
    (Mat.sum2 (Mat.emul (Mat.mtimes (kern x hyp (some x_train) false) k_inv)
      (kern x hyp (some x_train) false)))

theorem gp_pred_ok_some (x : Mat) (kern : KernFun) (beta x_train : Mat) (hyp : Hyp)
    (k_inv : Mat) :
    gp_pred x kern beta x_train hyp (some k_inv) true =
      Except.ok (gpMean x kern beta x_train hyp,
        some (gpSigma x kern beta x_train hyp k_inv)) := rfl

theorem gp_pred_no_var (x : Mat) (kern : KernFun) (beta x_train : Mat) (hyp : Hyp)
    (k_inv : Option Mat) :
    gp_pred x kern beta x_train hyp k_inv false =
      Except.ok (gpMean x kern beta x_train hyp, none) := rfl

/-- Accumulators of the loop in gp_pred_function: the horizontally grown
mean and variance matrices and the vertically grown jacobian. -/
structure GPAcc where
  mu : Mat
  sigma : Mat
  jac : Mat

/-- Python list indexing l[i]: the value, or IndexError when out of range. -/
def listLookup {α : Type} (l : List α) (i : Nat) : Except String α :=
  match l.get? i with
  | some a => Except.ok a
  | none => Except.error "IndexError: list index out of range"

/-- The k_inv_i computed at loop index i (lines 144 to 146): None when no
inverted kernel matrices were passed, otherwise the i-th list element. -/
def kInvLookup (k_inv_training : Option (List Mat)) (i : Nat) :
    Except String (Option Mat) :=
  match k_inv_training with
  | none => Except.ok none
  | some l => match l.get? i with
    | some m => Except.ok (some m)
    | none => Except.error "IndexError: list index out of range"

/-- One iteration of the loop of gp_pred_function (lines 140 to 166) at
index i.  The casadi Function indirection evaluates the symbolic prediction
at x, so the mean and variance are those of gp_pred at x; the jacobian of
the symbolic mean with respect to the input, evaluated at x, is produced by
the external engine jaceng.  Python list indexing raises IndexError when out
of range. -/
noncomputable def gp_pred_function_step (jaceng : (Mat → Mat) → Mat → Mat)
    (x x_train beta : Mat) (hyp : List Hyp) (kern_types : List String)
    (k_inv_training : Option (List Mat)) (pred_var compute_grads : Bool)
    (i : Nat) (acc : GPAcc) : Except String GPAcc := do
  let t ← listLookup kern_types i
  let kern_i ← _get_kernel_function t
  let beta_i := Mat.colOf beta i
  let hyp_i ← listLookup hyp i
  let k_inv_i ← kInvLookup k_inv_training i
  let res ← gp_pred x kern_i beta_i x_train hyp_i k_inv_i pred_var
  let acc1 : GPAcc :=
    { mu := Mat.horzcat acc.mu res.1
      -- the source prepends: pred_sigma_all = horzcat(pred_sigma, pred_sigma_all)
      sigma := Option.elim res.2 acc.sigma fun s => Mat.horzcat s acc.sigma
      jac := acc.jac }
  if compute_grads then
    let jac_mu := jaceng (fun inp => Mat.mtimes (kern_i inp hyp_i (some x_train) false) beta_i) x
    Except.ok { acc1 with jac := Mat.vertcat acc1.jac jac_mu }
  else
    Except.ok acc1

/-- The loop of gp_pred_function run for the first n indices, starting from
empty accumulators (the python empty lists). -/
noncomputable def gp_pred_function_loop (jaceng : (Mat → Mat) → Mat → Mat)
    (x x_train beta : Mat) (hyp : List Hyp) (kern_types : List String)
    (k_inv_training : Option (List Mat)) (pred_var compute_grads : Bool) :
    Nat → Except String GPAcc
  | 0 => Except.ok ⟨Mat.empty, Mat.empty, Mat.empty⟩
  | n + 1 => do
    let acc ← gp_pred_function_loop jaceng x x_train beta hyp kern_types k_inv_training
      pred_var compute_grads n
    gp_pred_function_step jaceng x x_train beta hyp kern_types k_inv_training
      pred_var compute_grads n acc

/-- The output dictionary of gp_pred_function: pred_mu always, pred_sigma
under pred_var, jac_mu under compute_grads. -/
structure GPOut where
  pred_mu : Mat
  pred_sigma : Option Mat
  jac_mu : Option Mat

/-- Multi-output wrapper gp_pred_function (lines 130 to 176): one
single-output GP per column of beta, assembled by concatenation. -/
noncomputable def gp_pred_function (jaceng : (Mat → Mat) → Mat → Mat)
    (x x_train beta : Mat) (hyp : List Hyp) (kern_types : List String)
    (k_inv_training : Option (List Mat) := none) (pred_var : Bool := true)
    (compute_grads : Bool := false) : Except String GPOut := do
  let n_gps := beta.cols
  let acc ← gp_pred_function_loop jaceng x x_train beta hyp kern_types k_inv_training
    pred_var compute_grads n_gps
  Except.ok
    { pred_mu := acc.mu
      pred_sigma := if pred_var then some acc.sigma else none
      jac_mu := if compute_grads then some acc.jac else none }

/-- The jacobian block contributed by GP i in gp_pred_function under
compute_grads: the engine applied to that mean map at x. -/
noncomputable def jacBlock (jaceng : (Mat → Mat) → Mat → Mat)
    (x x_train : Mat) (kern : KernFun) (hyp : Hyp) (beta_i : Mat) : Mat :=
  jaceng (fun inp => Mat.mtimes (kern inp hyp (some x_train) false) beta_i) x

/-!
Embedding of safe_exploration/ssm_pytorch/gaussian_process.py (the parts the
claims are about).  The gpytorch model underlying GPytorchSSM is abstracted
to its mean and kernel maps; torch.stack and compute_jacobian are external
and passed as abstract function parameters.
-/

/-- Python exceptions raised by the embedded torch-side code. -/
inductive PyErr where
  | nameError : String → PyErr
  | notImplementedError : String → PyErr

/-- The pieces of the wrapped gpytorch model that the GPytorchSSM methods
read: its mean map and its kernel (variance) map. -/
structure TorchGP where
  mean : Mat → Mat
  kernel : Mat → Mat

/-- Training data held by a MultiOutputGP model. -/
structure MultiOutputGPData where
  train_inputs : Mat
  train_targets : Mat

/-- MultiOutputGP.set_train_data (gaussian_process.py lines 178 to 180):
the body unconditionally raises NotImplementedError with message TODO, so no
updated model state is ever produced. -/
def set_train_data (model : MultiOutputGPData) (inputs targets : Option Mat)
    (strict : Bool) : Except PyErr MultiOutputGPData :=
  Except.error (PyErr.notImplementedError "TODO")

/-- GPytorchSSM.predict (gaussian_process.py lines 250 to 288).  The body
stacks the inputs, evaluates the mean and the kernel, and when jacobians is
true returns the four-tuple (mean, variance, jacobian of mean, jacobian of
variance).  When jacobians is false the final statement is the bare
expression pred_mean, pred_var without a return, so the python function
returns None, modelled as Option.none.  The full_cov argument is never read
by the body. -/
def predict (gp : TorchGP) (stack : Mat → Mat → Mat)
    (compute_jacobian : (Mat → Mat) → Mat → Mat) (states actions : Mat)
    (jacobians full_cov : Bool) : Option (Mat × Mat × Mat × Mat) :=
  let inp := stack states actions
  let pred_mean := gp.mean inp
  let pred_var := gp.kernel inp
  if jacobians then
    some (pred_mean, pred_var, compute_jacobian gp.mean inp, compute_jacobian gp.kernel inp)
  else
    none

/-- GPytorchSSM.linearize_predict (gaussian_process.py lines 290 to 335).
Its first statement is N, n = np.shape(state).  The module never imports
numpy, so the name np is undefined (and the name state is likewise undefined;
the parameter is called states).  Python therefore raises NameError before
any prediction work, and the rest of the body is unreachable. -/
def linearize_predict (gp : TorchGP) (stack : Mat → Mat → Mat)
    (states actions : Mat) (jacobians full_cov : Bool) :
    Except PyErr (Mat × Mat × Mat × Mat × Mat) :=
  Except.error (PyErr.nameError "name np is not defined")

/-!
Entry-level lemmas and canonical forms used by the correctness proofs.
-/

namespace Mat

theorem smul_entry {c : ℝ} {a : Mat} {i j : Nat} (hi : i < a.rows) (hj : j < a.cols) :
    (smul c a).entry i j = c * a.entry i j :=
  of_entry _ hi hj

theorem emap_entry {f : ℝ → ℝ} {a : Mat} {i j : Nat} (hi : i < a.rows) (hj : j < a.cols) :
    (emap f a).entry i j = f (a.entry i j) :=
  of_entry _ hi hj

theorem eadd_same {a b : Mat} (hr : a.rows = b.rows) (hc : a.cols = b.cols) :
    eadd a b = of a.rows a.cols fun i j => a.entry i j + b.entry i j := by
  unfold eadd
  exact ew_same _ hr hc

theorem esub_same {a b : Mat} (hr : a.rows = b.rows) (hc : a.cols = b.cols) :
    esub a b = of a.rows a.cols fun i j => a.entry i j - b.entry i j := by
  unfold esub
  exact ew_same _ hr hc

theorem emul_same {a b : Mat} (hr : a.rows = b.rows) (hc : a.cols = b.cols) :
    emul a b = of a.rows a.cols fun i j => a.entry i j * b.entry i j := by
  unfold emul
  exact ew_same _ hr hc

theorem ediv_same {a b : Mat} (hr : a.rows = b.rows) (hc : a.cols = b.cols) :
    ediv a b = of a.rows a.cols fun i j => a.entry i j / b.entry i j := by
  unfold ediv
  exact ew_same _ hr hc

theorem emul_mismatch {a b : Mat}
    (h1 : ¬(a.rows = b.rows ∧ a.cols = b.cols))
    (h2 : ¬(a.rows = 1 ∧ a.cols = 1)) (h3 : ¬(b.rows = 1 ∧ b.cols = 1)) :
    emul a b = empty := by
  unfold emul
  exact ew_mismatch _ h1 h2 h3

end Mat

theorem sum_sq_expand (n : Nat) (f g : Nat → ℝ) :
    (-2) * (∑ k ∈ Finset.range n, f k * g k) + (∑ k ∈ Finset.range n, f k ^ 2)
      + ∑ k ∈ Finset.range n, g k ^ 2
    = ∑ k ∈ Finset.range n, (f k - g k) ^ 2 := by
  have h : ∀ k ∈ Finset.range n, (f k - g k) ^ 2 = f k ^ 2 - 2 * (f k * g k) + g k ^ 2 :=
    fun k _ => by ring
  rw [Finset.sum_congr rfl h, Finset.sum_add_distrib, Finset.sum_sub_distrib,
    ← Finset.mul_sum]
  ring

namespace Mat

/-- All matrices produced by the constructors above vanish outside their
stated dimensions. -/
def Masked (a : Mat) : Prop :=
  ∀ i j, ¬(i < a.rows ∧ j < a.cols) → a.entry i j = 0

theorem masked_of (r c : Nat) (f : Nat → Nat → ℝ) : Masked (of r c f) :=
  fun _ _ h => of_entry_out f h

theorem masked_ew (f : ℝ → ℝ → ℝ) (a b : Mat) : Masked (ew f a b) := by
  unfold ew
  split_ifs <;> exact masked_of _ _ _

theorem masked_ext {a b : Mat} (ma : Masked a) (mb : Masked b)
    (hr : a.rows = b.rows) (hc : a.cols = b.cols)
    (he : ∀ i j, i < a.rows → j < a.cols → a.entry i j = b.entry i j) : a = b := by
  cases a with
  | mk ar ac ae =>
    cases b with
    | mk br bc be =>
      dsimp only at hr hc he ma mb
      subst hr
      subst hc
      congr 1
      funext i j
      by_cases hij : i < ar ∧ j < ac
      · exact he i j hij.1 hij.2
      · exact (ma i j hij).trans (mb i j hij).symm

theorem eadd_rows {a b : Mat} (hr : a.rows = b.rows) (hc : a.cols = b.cols) :
    (eadd a b).rows = a.rows := by rw [eadd_same hr hc, of_rows]

theorem eadd_cols {a b : Mat} (hr : a.rows = b.rows) (hc : a.cols = b.cols) :
    (eadd a b).cols = a.cols := by rw [eadd_same hr hc, of_cols]

theorem eadd_entry {a b : Mat} {i j : Nat} (hr : a.rows = b.rows) (hc : a.cols = b.cols)
    (hi : i < a.rows) (hj : j < a.cols) :
    (eadd a b).entry i j = a.entry i j + b.entry i j := by
  rw [eadd_same hr hc, of_entry _ hi hj]

theorem esub_rows {a b : Mat} (hr : a.rows = b.rows) (hc : a.cols = b.cols) :
    (esub a b).rows = a.rows := by rw [esub_same hr hc, of_rows]

theorem esub_cols {a b : Mat} (hr : a.rows = b.rows) (hc : a.cols = b.cols) :
    (esub a b).cols = a.cols := by rw [esub_same hr hc, of_cols]

theorem esub_entry {a b : Mat} {i j : Nat} (hr : a.rows = b.rows) (hc : a.cols = b.cols)
    (hi : i < a.rows) (hj : j < a.cols) :
    (esub a b).entry i j = a.entry i j - b.entry i j := by
  rw [esub_same hr hc, of_entry _ hi hj]

theorem emul_rows {a b : Mat} (hr : a.rows = b.rows) (hc : a.cols = b.cols) :
    (emul a b).rows = a.rows := by rw [emul_same hr hc, of_rows]

theorem emul_cols {a b : Mat} (hr : a.rows = b.rows) (hc : a.cols = b.cols) :
    (emul a b).cols = a.cols := by rw [emul_same hr hc, of_cols]

theorem emul_entry {a b : Mat} {i j : Nat} (hr : a.rows = b.rows) (hc : a.cols = b.cols)
    (hi : i < a.rows) (hj : j < a.cols) :
    (emul a b).entry i j = a.entry i j * b.entry i j := by
  rw [emul_same hr hc, of_entry _ hi hj]

theorem ediv_rows {a b : Mat} (hr : a.rows = b.rows) (hc : a.cols = b.cols) :
    (ediv a b).rows = a.rows := by rw [ediv_same hr hc, of_rows]

theorem ediv_cols {a b : Mat} (hr : a.rows = b.rows) (hc : a.cols = b.cols) :
    (ediv a b).cols = a.cols := by rw [ediv_same hr hc, of_cols]

theorem ediv_entry {a b : Mat} {i j : Nat} (hr : a.rows = b.rows) (hc : a.cols = b.cols)
    (hi : i < a.rows) (hj : j < a.cols) :
    (ediv a b).entry i j = a.entry i j / b.entry i j := by
  rw [ediv_same hr hc, of_entry _ hi hj]

end Mat

/-- Canonical form of _unscaled_dist on conforming inputs: entry (i, j) is
the square root of -2 xi . yj + norm xi ^ 2 + norm yj ^ 2. -/
theorem unscaled_dist_of (x y : Mat) (h : x.cols = y.cols) :
    _unscaled_dist x y = Mat.of x.rows y.rows fun i j =>
      Real.sqrt ((-2) * (∑ k ∈ Finset.range x.cols, x.entry i k * y.entry j k)
        + (∑ k ∈ Finset.range x.cols, x.entry i k ^ 2)
        + ∑ k ∈ Finset.range x.cols, y.entry j k ^ 2) := by
  show Mat.emap Real.sqrt
      (Mat.eadd
        (Mat.eadd (Mat.smul (-2) (Mat.mtimes x (Mat.transpose y)))
          (Mat.repmat (Mat.sum2 (Mat.emap (fun t => t ^ 2) x)) 1 y.rows))
        (Mat.repmat (Mat.transpose (Mat.sum2 (Mat.emap (fun t => t ^ 2) y))) x.rows 1))
    = Mat.of x.rows y.rows _
  set M := Mat.smul (-2) (Mat.mtimes x (Mat.transpose y)) with hM
  set R1 := Mat.repmat (Mat.sum2 (Mat.emap (fun t => t ^ 2) x)) 1 y.rows with hR1
  set R2 := Mat.repmat (Mat.transpose (Mat.sum2 (Mat.emap (fun t => t ^ 2) y))) x.rows 1 with hR2
  have hMr : M.rows = x.rows := by rw [hM]; simp
  have hMc : M.cols = y.rows := by rw [hM]; simp
  have hR1r : R1.rows = x.rows := by rw [hR1]; simp
  have hR1c : R1.cols = y.rows := by rw [hR1]; simp
  have hR2r : R2.rows = x.rows := by rw [hR2]; simp
  have hR2c : R2.cols = y.rows := by rw [hR2]; simp
  have hE1r : (Mat.eadd M R1).rows = x.rows := by
    rw [Mat.eadd_rows (hMr.trans hR1r.symm) (hMc.trans hR1c.symm), hMr]
  have hE1c : (Mat.eadd M R1).cols = y.rows := by
    rw [Mat.eadd_cols (hMr.trans hR1r.symm) (hMc.trans hR1c.symm), hMc]
  have hE2r : (Mat.eadd (Mat.eadd M R1) R2).rows = x.rows := by
    rw [Mat.eadd_rows (hE1r.trans hR2r.symm) (hE1c.trans hR2c.symm), hE1r]
  have hE2c : (Mat.eadd (Mat.eadd M R1) R2).cols = y.rows := by
    rw [Mat.eadd_cols (hE1r.trans hR2r.symm) (hE1c.trans hR2c.symm), hE1c]
  apply Mat.masked_ext (Mat.masked_of _ _ _) (Mat.masked_of _ _ _)
  · simp [hE2r]
  · simp [hE2c]
  · intro i j hi hj
    have hix : i < x.rows := by
      rw [← hE2r]
      simpa using hi
    have hjy : j < y.rows := by
      rw [← hE2c]
      simpa using hj
    rw [Mat.of_entry _ hix hjy]
    rw [Mat.of_entry (r := (Mat.eadd (Mat.eadd M R1) R2).rows)
      (c := (Mat.eadd (Mat.eadd M R1) R2).cols) _
      (by rw [hE2r]; exact hix) (by rw [hE2c]; exact hjy)]
    rw [Mat.eadd_entry (hE1r.trans hR2r.symm) (hE1c.trans hR2c.symm)
      (by rw [hE1r]; exact hix) (by rw [hE1c]; exact hjy)]
    rw [Mat.eadd_entry (hMr.trans hR1r.symm) (hMc.trans hR1c.symm)
      (by rw [hMr]; exact hix) (by rw [hMc]; exact hjy)]
    have eM : M.entry i j = (-2) * ∑ k ∈ Finset.range x.cols, x.entry i k * y.entry j k := by
      rw [hM]
      rw [Mat.smul_entry (by simpa using hix) (by simpa using hjy)]
      rw [Mat.mtimes_entry hix (by simpa using hjy)]
      congr 1
      refine Finset.sum_congr rfl fun k hk => ?_
      rw [Mat.transpose_entry (by rw [← h]; exact Finset.mem_range.mp hk) hjy]
    have eR1 : R1.entry i j = ∑ k ∈ Finset.range x.cols, x.entry i k ^ 2 := by
      rw [hR1]
      rw [Mat.repmat_entry (by simpa using hix) (by simpa using hjy)]
      simp only [Mat.sum2_rows, Mat.emap_rows, Mat.sum2_cols]
      rw [Nat.mod_eq_of_lt hix, Nat.mod_one]
      rw [Mat.sum2_entry (by simpa using hix)]
      simp only [Mat.emap_cols]
      exact Finset.sum_congr rfl fun k hk => Mat.emap_entry hix (Finset.mem_range.mp hk)
    have eR2 : R2.entry i j = ∑ k ∈ Finset.range x.cols, y.entry j k ^ 2 := by
      rw [hR2]
      rw [Mat.repmat_entry (by simpa using hix) (by simpa using hjy)]
      simp only [Mat.transpose_rows, Mat.transpose_cols, Mat.sum2_rows, Mat.sum2_cols,
        Mat.emap_rows]
      rw [Nat.mod_one, Nat.mod_eq_of_lt hjy]
      rw [Mat.transpose_entry (by simp) (by simpa using hjy)]
      rw [Mat.sum2_entry (by simpa using hjy)]
      simp only [Mat.emap_cols]
      rw [← h]
      exact Finset.sum_congr rfl fun k hk => Mat.emap_entry hjy (h ▸ Finset.mem_range.mp hk)
    rw [eM, eR1, eR2]

/-- The non-diagonal branch of _k_rbf with the y argument made explicit
(y = None resolves to x in the source). -/
noncomputable def k_rbf_body (x y : Mat) (hyp : Hyp) : Mat :=
  Mat.smul hyp.rbf_variance
    (Mat.emap Real.exp (Mat.smul (-(1 / 2))
      (Mat.emap (fun t => t ^ 2)
        (_unscaled_dist (Mat.ediv x (Mat.repmat hyp.rbf_lengthscales x.rows 1))
          (Mat.ediv y (Mat.repmat hyp.rbf_lengthscales y.rows 1))))))

theorem k_rbf_some_eq (x y : Mat) (hyp : Hyp) :
    _k_rbf x hyp (some y) false = k_rbf_body x y hyp := rfl

theorem k_rbf_none_eq (x : Mat) (hyp : Hyp) :
    _k_rbf x hyp none false = k_rbf_body x x hyp := rfl

theorem k_rbf_diag_eq (x : Mat) (hyp : Hyp) (y : Option Mat) :
    _k_rbf x hyp y true = Mat.of 1 1 fun _ _ => hyp.rbf_variance := rfl

/-- Scaling a matrix by the inverse lengthscales, as computed by
x / repmat(lenscales, n_x, 1). -/
theorem ediv_lens_eq (x : Mat) (hyp : Hyp)
    (hl : hyp.rbf_lengthscales.rows = 1) (hx : x.cols = hyp.rbf_lengthscales.cols) :
    Mat.ediv x (Mat.repmat hyp.rbf_lengthscales x.rows 1)
      = Mat.of x.rows x.cols fun i k => x.entry i k / hyp.rbf_lengthscales.entry 0 k := by
  rw [Mat.ediv_same (by simp [hl]) (by simp [hx])]
  apply Mat.of_congr
  intro i k hi hk
  rw [Mat.repmat_entry (by simp [hl]; omega) (by rw [hx] at hk; simpa using hk)]
  rw [hl, Nat.mod_one, Nat.mod_eq_of_lt (hx ▸ hk)]

/-- Canonical form of the full RBF kernel matrix on conforming inputs. -/
theorem k_rbf_body_of (x y : Mat) (hyp : Hyp)
    (hl : hyp.rbf_lengthscales.rows = 1)
    (hx : x.cols = hyp.rbf_lengthscales.cols) (hy : y.cols = hyp.rbf_lengthscales.cols) :
    k_rbf_body x y hyp = Mat.of x.rows y.rows fun i j =>
      hyp.rbf_variance * Real.exp (-(1 / 2) *
        Real.sqrt ((-2) * (∑ k ∈ Finset.range x.cols,
            x.entry i k / hyp.rbf_lengthscales.entry 0 k
              * (y.entry j k / hyp.rbf_lengthscales.entry 0 k))
          + (∑ k ∈ Finset.range x.cols,
              (x.entry i k / hyp.rbf_lengthscales.entry 0 k) ^ 2)
          + ∑ k ∈ Finset.range x.cols,
              (y.entry j k / hyp.rbf_lengthscales.entry 0 k) ^ 2) ^ 2) := by
  unfold k_rbf_body
  rw [ediv_lens_eq x hyp hl hx, ediv_lens_eq y hyp hl hy]
  rw [unscaled_dist_of _ _ (by simp [hx, hy])]
  simp only [Mat.of_rows, Mat.of_cols]
  rw [Mat.emap_of, Mat.smul_of, Mat.emap_of, Mat.smul_of]
  apply Mat.of_congr
  intro i j hi hj
  have ex : ∀ k, k < x.cols →
      (Mat.of x.rows x.cols fun p q => x.entry p q / hyp.rbf_lengthscales.entry 0 q).entry i k
        = x.entry i k / hyp.rbf_lengthscales.entry 0 k :=
    fun k hk => Mat.of_entry _ hi hk
  have ey : ∀ k, k < y.cols →
      (Mat.of y.rows y.cols fun p q => y.entry p q / hyp.rbf_lengthscales.entry 0 q).entry j k
        = y.entry j k / hyp.rbf_lengthscales.entry 0 k :=
    fun k hk => Mat.of_entry _ hj hk
  have hxy : x.cols = y.cols := hx.trans hy.symm
  have s1 : (∑ k ∈ Finset.range x.cols,
        (Mat.of x.rows x.cols fun p q => x.entry p q / hyp.rbf_lengthscales.entry 0 q).entry i k
          * (Mat.of y.rows y.cols fun p q =>
              y.entry p q / hyp.rbf_lengthscales.entry 0 q).entry j k)
      = ∑ k ∈ Finset.range x.cols, x.entry i k / hyp.rbf_lengthscales.entry 0 k
          * (y.entry j k / hyp.rbf_lengthscales.entry 0 k) :=
    Finset.sum_congr rfl fun k hk => by
      rw [ex k (Finset.mem_range.mp hk), ey k (hxy ▸ Finset.mem_range.mp hk)]
  have s2 : (∑ k ∈ Finset.range x.cols,
        (Mat.of x.rows x.cols fun p q =>
          x.entry p q / hyp.rbf_lengthscales.entry 0 q).entry i k ^ 2)
      = ∑ k ∈ Finset.range x.cols, (x.entry i k / hyp.rbf_lengthscales.entry 0 k) ^ 2 :=
    Finset.sum_congr rfl fun k hk => by rw [ex k (Finset.mem_range.mp hk)]
  have s3 : (∑ k ∈ Finset.range x.cols,
        (Mat.of y.rows y.cols fun p q =>
          y.entry p q / hyp.rbf_lengthscales.entry 0 q).entry j k ^ 2)
      = ∑ k ∈ Finset.range x.cols, (y.entry j k / hyp.rbf_lengthscales.entry 0 k) ^ 2 :=
    Finset.sum_congr rfl fun k hk => by rw [ey k (hxy ▸ Finset.mem_range.mp hk)]
  rw [s1, s2, s3]

/-- Closed form of an entry of the full RBF kernel matrix: the square root
introduced by _unscaled_dist is cancelled by the square, and the scaled
squared distance collapses to the standard RBF exponent. -/
theorem k_rbf_body_entry (x y : Mat) (hyp : Hyp)
    (hl : hyp.rbf_lengthscales.rows = 1)
    (hx : x.cols = hyp.rbf_lengthscales.cols) (hy : y.cols = hyp.rbf_lengthscales.cols)
    {i j : Nat} (hi : i < x.rows) (hj : j < y.rows) :
    (k_rbf_body x y hyp).entry i j
      = hyp.rbf_variance * Real.exp (-(1 / 2) * ∑ k ∈ Finset.range x.cols,
          ((x.entry i k - y.entry j k) / hyp.rbf_lengthscales.entry 0 k) ^ 2) := by
  rw [k_rbf_body_of x y hyp hl hx hy, Mat.of_entry _ hi hj]
  rw [sum_sq_expand x.cols (fun k => x.entry i k / hyp.rbf_lengthscales.entry 0 k)
    (fun k => y.entry j k / hyp.rbf_lengthscales.entry 0 k)]
  rw [Real.sq_sqrt (Finset.sum_nonneg fun k _ => sq_nonneg _)]
  have s4 : (∑ k ∈ Finset.range x.cols,
        (x.entry i k / hyp.rbf_lengthscales.entry 0 k
          - y.entry j k / hyp.rbf_lengthscales.entry 0 k) ^ 2)
      = ∑ k ∈ Finset.range x.cols,
          ((x.entry i k - y.entry j k) / hyp.rbf_lengthscales.entry 0 k) ^ 2 :=
    Finset.sum_congr rfl fun k _ => by rw [div_sub_div_same]
  rw [s4]

/-- Every diagonal entry of the full RBF kernel matrix is the variance, the
single value held by the 1 by 1 diag_only output. -/
theorem k_rbf_full_diag_const (x : Mat) (hyp : Hyp)
    (hl : hyp.rbf_lengthscales.rows = 1) (hx : x.cols = hyp.rbf_lengthscales.cols)
    {i : Nat} (hi : i < x.rows) :
    (_k_rbf x hyp none false).entry i i = hyp.rbf_variance := by
  rw [k_rbf_none_eq, k_rbf_body_entry x x hyp hl hx hx hi hi]
  simp [sub_self]

theorem k_rbf_full_rows (x y : Mat) (hyp : Hyp)
    (hl : hyp.rbf_lengthscales.rows = 1)
    (hx : x.cols = hyp.rbf_lengthscales.cols) (hy : y.cols = hyp.rbf_lengthscales.cols) :
    (_k_rbf x hyp (some y) false).rows = x.rows := by
  rw [k_rbf_some_eq, k_rbf_body_of x y hyp hl hx hy, Mat.of_rows]

theorem k_rbf_full_cols (x y : Mat) (hyp : Hyp)
    (hl : hyp.rbf_lengthscales.rows = 1)
    (hx : x.cols = hyp.rbf_lengthscales.cols) (hy : y.cols = hyp.rbf_lengthscales.cols) :
    (_k_rbf x hyp (some y) false).cols = y.rows := by
  rw [k_rbf_some_eq, k_rbf_body_of x y hyp hl hx hy, Mat.of_cols]

/-- A constant r by c matrix, used to build concrete instances. -/
def cMat (r c : Nat) (v : ℝ) : Mat := Mat.of r c fun _ _ => v

/-- A concrete hyperparameter set: unit lengthscale, unit variances. -/
def cHyp : Hyp := ⟨cMat 1 1 1, 1, cMat 1 1 1⟩

/-- C2: on point sets x (n_x rows) and y (n_y rows) with lengthscales l and
variance s, _k_rbf(x, hyp, y) is an n_x by n_y matrix whose (i, j) entry is
s * exp(-(1/2) * sum over d of ((x i d - y j d) / l d) ^ 2), and omitting y
gives _k_rbf(x, hyp, x). -/
theorem C2_k_rbf_formula (x y : Mat) (hyp : Hyp)
    (hl : hyp.rbf_lengthscales.rows = 1)
    (hx : x.cols = hyp.rbf_lengthscales.cols) (hy : y.cols = hyp.rbf_lengthscales.cols) :
    ((_k_rbf x hyp (some y) false).rows = x.rows
      ∧ (_k_rbf x hyp (some y) false).cols = y.rows
      ∧ ∀ i j, i < x.rows → j < y.rows →
          (_k_rbf x hyp (some y) false).entry i j
            = hyp.rbf_variance * Real.exp (-(1 / 2) * ∑ k ∈ Finset.range x.cols,
                ((x.entry i k - y.entry j k) / hyp.rbf_lengthscales.entry 0 k) ^ 2))
    ∧ _k_rbf x hyp none false = _k_rbf x hyp (some x) false := by
  refine ⟨⟨k_rbf_full_rows x y hyp hl hx hy, k_rbf_full_cols x y hyp hl hx hy,
    fun i j hi hj => ?_⟩, rfl⟩
  rw [k_rbf_some_eq]
  exact k_rbf_body_entry x y hyp hl hx hy hi hj

theorem C2_k_rbf_formula_witness :
    (_k_rbf (cMat 1 1 0) cHyp (some (cMat 1 1 0)) false).entry 0 0
      = cHyp.rbf_variance * Real.exp (-(1 / 2) * ∑ k ∈ Finset.range (cMat 1 1 0).cols,
          (((cMat 1 1 0).entry 0 k - (cMat 1 1 0).entry 0 k)
            / cHyp.rbf_lengthscales.entry 0 k) ^ 2) :=
  (C2_k_rbf_formula (cMat 1 1 0) (cMat 1 1 0) cHyp rfl rfl rfl).1.2.2 0 0
    Nat.one_pos Nat.one_pos

theorem k_lin_none_shape (x : Mat) (hyp : Hyp)
    (hlv : hyp.lin_variances.rows = 1) (hxv : x.cols = hyp.lin_variances.cols) (d : Bool) :
    (_k_lin x hyp none d).rows = x.rows ∧ (_k_lin x hyp none d).cols = x.rows := by
  show (Mat.mtimes (Mat.emul x (Mat.emap Real.sqrt (Mat.repmat hyp.lin_variances x.rows 1)))
      (Mat.transpose
        (Mat.emul x (Mat.emap Real.sqrt (Mat.repmat hyp.lin_variances x.rows 1))))).rows
      = x.rows
    ∧ (Mat.mtimes (Mat.emul x (Mat.emap Real.sqrt (Mat.repmat hyp.lin_variances x.rows 1)))
      (Mat.transpose
        (Mat.emul x (Mat.emap Real.sqrt (Mat.repmat hyp.lin_variances x.rows 1))))).cols
      = x.rows
  constructor
  · rw [Mat.mtimes_rows, Mat.emul_rows (by simp [hlv]) (by simp [hxv])]
  · rw [Mat.mtimes_cols, Mat.transpose_cols, Mat.emul_rows (by simp [hlv]) (by simp [hxv])]

/-- C4 (amended): for a single-row input the property holds, but for T at
least 2 none of the three kernels returns the length-T diagonal vector.
The diag_only output of _k_rbf is the 1 by 1 matrix holding the variance
(the scalar casadi later broadcasts), whose single entry does equal every
diagonal entry of the full RBF kernel matrix; _k_lin ignores diag_only and
returns the full matrix unchanged; and _k_prod_lin_rbf with diag_only true
broadcasts that 1 by 1 scalar over the full T by T linear kernel matrix,
yielding a T by T matrix rather than the diagonal vector. -/
theorem C4_diag_amended (x : Mat) (hyp : Hyp)
    (hl : hyp.rbf_lengthscales.rows = 1) (hx : x.cols = hyp.rbf_lengthscales.cols)
    (hlv : hyp.lin_variances.rows = 1) (hxv : x.cols = hyp.lin_variances.cols) :
    ((_k_rbf x hyp none true).rows = 1 ∧ (_k_rbf x hyp none true).cols = 1
      ∧ (_k_rbf x hyp none true).entry 0 0 = hyp.rbf_variance
      ∧ ∀ i, i < x.rows →
          (_k_rbf x hyp none false).entry i i = (_k_rbf x hyp none true).entry 0 0)
    ∧ (∀ (y : Option Mat) (d : Bool), _k_lin x hyp y d = _k_lin x hyp y false)
    ∧ (2 ≤ x.rows →
        _k_prod_lin_rbf x hyp none true
          = Mat.of x.rows x.rows fun i j =>
              hyp.rbf_variance * (_k_lin x hyp none false).entry i j)
    ∧ (2 ≤ x.rows → (_k_rbf x hyp none true).rows ≠ x.rows
        ∧ (_k_lin x hyp none true).cols ≠ 1
        ∧ (_k_prod_lin_rbf x hyp none true).cols ≠ 1) := by
  have hdiag : (_k_rbf x hyp none true).entry 0 0 = hyp.rbf_variance := by
    rw [k_rbf_diag_eq]
    exact Mat.of_entry _ Nat.one_pos Nat.one_pos
  have hr := (k_lin_none_shape x hyp hlv hxv true).1
  have hc := (k_lin_none_shape x hyp hlv hxv true).2
  have hprod : 2 ≤ x.rows →
      _k_prod_lin_rbf x hyp none true
        = Mat.of x.rows x.rows fun i j =>
            hyp.rbf_variance * (_k_lin x hyp none false).entry i j := by
    intro h2x
    show Mat.emul (_k_rbf x hyp none true) (_k_lin x hyp none true) = _
    rw [k_rbf_diag_eq]
    have he : Mat.emul (Mat.of 1 1 fun _ _ => hyp.rbf_variance) (_k_lin x hyp none true)
        = Mat.of (_k_lin x hyp none true).rows (_k_lin x hyp none true).cols
            fun i j => (Mat.of 1 1 fun _ _ => hyp.rbf_variance).entry 0 0
              * (_k_lin x hyp none true).entry i j := by
      unfold Mat.emul
      exact Mat.ew_scalar_left _
        (by
          rintro ⟨hrr, -⟩
          rw [Mat.of_rows, hr] at hrr
          omega)
        rfl rfl
    rw [he, hr, hc]
    apply Mat.of_congr
    intro i j hi hj
    rw [Mat.of_entry _ Nat.one_pos Nat.one_pos]
    rfl
  refine ⟨⟨rfl, rfl, hdiag, fun i hi => ?_⟩, fun y d => rfl, hprod, fun h2x => ?_⟩
  · rw [k_rbf_full_diag_const x hyp hl hx hi, hdiag]
  · refine ⟨?_, ?_, ?_⟩
    · rw [k_rbf_diag_eq, Mat.of_rows]
      omega
    · rw [hc]
      omega
    · rw [hprod h2x, Mat.of_cols]
      omega

/-- C4 counterexample: on a 2 by 1 input, _k_rbf called with diag_only true
returns a 1 by 1 matrix (so not a length-2 vector), and _k_lin called with
diag_only true returns a 2 by 2 matrix (so not a length-2 vector either). -/
theorem C4_diag_counterexample :
    (_k_rbf (cMat 2 1 1) cHyp none true).rows ≠ 2
    ∧ (_k_lin (cMat 2 1 1) cHyp none true).cols ≠ 1 := by
  constructor <;> decide

theorem C4_diag_amended_witness :
    (_k_rbf (cMat 2 1 1) cHyp none false).entry 0 0
      = (_k_rbf (cMat 2 1 1) cHyp none true).entry 0 0 :=
  (C4_diag_amended (cMat 2 1 1) cHyp rfl rfl rfl rfl).1.2.2.2 0 (by decide)

/-- The row sums of (K K_inv) Hadamard K are the diagonal entries of
K K_inv K-transpose: this links the expression computed in gp_pred with the
diagonal of the triple product. -/
theorem sum2_emul_diag (K k_inv : Mat) (hsq : k_inv.cols = K.cols)
    {i : Nat} (hi : i < K.rows) :
    (Mat.sum2 (Mat.emul (Mat.mtimes K k_inv) K)).entry i 0
      = (Mat.mtimes (Mat.mtimes K k_inv) (Mat.transpose K)).entry i i := by
  have he : Mat.emul (Mat.mtimes K k_inv) K
      = Mat.of K.rows k_inv.cols fun p q =>
          (Mat.mtimes K k_inv).entry p q * K.entry p q := by
    have h := Mat.emul_same (a := Mat.mtimes K k_inv) (b := K) (by simp) (by simp [hsq])
    simpa using h
  rw [he]
  rw [Mat.sum2_entry (by simpa using hi)]
  simp only [Mat.of_cols]
  rw [Mat.mtimes_entry (by simpa using hi) (by simpa using hi)]
  simp only [Mat.mtimes_cols]
  refine Finset.sum_congr rfl fun q hq => ?_
  have hq' : q < k_inv.cols := Finset.mem_range.mp hq
  rw [Mat.of_entry _ hi hq']
  rw [Mat.transpose_entry (hsq ▸ hq') hi]

/-- Entry formula for the variance expression built inside gp_pred. -/
theorem gpSigma_entry (x : Mat) (kern : KernFun) (beta x_train : Mat) (hyp : Hyp)
    (k_inv : Mat)
    (hK : (kern x hyp (some x_train) false).rows = x.rows)
    (hsq : k_inv.cols = (kern x hyp (some x_train) false).cols)
    (hD : (kern x hyp none true).rows = x.rows)
    (hD1 : (kern x hyp none true).cols = 1)
    {i : Nat} (hi : i < x.rows) :
    (gpSigma x kern beta x_train hyp k_inv).entry i 0
      = (kern x hyp none true).entry i 0
        - (Mat.mtimes (Mat.mtimes (kern x hyp (some x_train) false) k_inv)
            (Mat.transpose (kern x hyp (some x_train) false))).entry i i := by
  unfold gpSigma
  have hs : (Mat.sum2 (Mat.emul (Mat.mtimes (kern x hyp (some x_train) false) k_inv)
      (kern x hyp (some x_train) false))).rows = (kern x hyp (some x_train) false).rows := by
    rw [Mat.sum2_rows, Mat.emul_rows (by simp) (by simp [hsq]), Mat.mtimes_rows]
  rw [Mat.esub_entry (by rw [hs, hD, hK]) (by simp [hD1])
    (by rw [hD]; exact hi) (by rw [hD1]; exact Nat.one_pos)]
  congr 1
  exact sum2_emul_diag (kern x hyp (some x_train) false) k_inv hsq (hK.symm ▸ hi)

/-- C1: gp_pred returns the mean K_star beta (with K_star = kern(x, hyp,
y = x_train)); and with pred_var true and k_inv_training given it also
returns a variance whose i-th entry is the diag_only kernel value at i minus
the i-th diagonal entry of K_star k_inv_training K_star-transpose. -/
theorem C1_gp_pred (x x_train beta k_inv : Mat) (hyp : Hyp) (kern : KernFun)
    (hK : (kern x hyp (some x_train) false).rows = x.rows)
    (hsq : k_inv.cols = (kern x hyp (some x_train) false).cols)
    (hD : (kern x hyp none true).rows = x.rows)
    (hD1 : (kern x hyp none true).cols = 1) :
    (∀ kio : Option Mat, gp_pred x kern beta x_train hyp kio false
        = Except.ok (Mat.mtimes (kern x hyp (some x_train) false) beta, none))
    ∧ gp_pred x kern beta x_train hyp (some k_inv) true
        = Except.ok (Mat.mtimes (kern x hyp (some x_train) false) beta,
            some (gpSigma x kern beta x_train hyp k_inv))
    ∧ ∀ i, i < x.rows →
        (gpSigma x kern beta x_train hyp k_inv).entry i 0
          = (kern x hyp none true).entry i 0
            - (Mat.mtimes (Mat.mtimes (kern x hyp (some x_train) false) k_inv)
                (Mat.transpose (kern x hyp (some x_train) false))).entry i i :=
  ⟨fun kio => gp_pred_no_var x kern beta x_train hyp kio,
    gp_pred_ok_some x kern beta x_train hyp k_inv,
    fun _ hi => gpSigma_entry x kern beta x_train hyp k_inv hK hsq hD hD1 hi⟩

theorem C1_gp_pred_witness :
    gp_pred (cMat 1 1 0) _k_rbf (cMat 1 1 2) (cMat 1 1 0) cHyp (some (cMat 1 1 1)) true
      = Except.ok (Mat.mtimes (_k_rbf (cMat 1 1 0) cHyp (some (cMat 1 1 0)) false) (cMat 1 1 2),
          some (gpSigma (cMat 1 1 0) _k_rbf (cMat 1 1 2) (cMat 1 1 0) cHyp (cMat 1 1 1))) :=
  (C1_gp_pred (cMat 1 1 0) (cMat 1 1 0) (cMat 1 1 2) (cMat 1 1 1) cHyp _k_rbf
    (k_rbf_full_rows (cMat 1 1 0) (cMat 1 1 0) cHyp rfl rfl rfl)
    (by rw [k_rbf_full_cols (cMat 1 1 0) (cMat 1 1 0) cHyp rfl rfl rfl]; rfl)
    rfl rfl).2.1

/-- C8: gp_pred raises ValueError exactly when pred_var is true and
k_inv_training is None; with pred_var false it returns only the predicted
mean and never raises, whatever k_inv_training is. -/
theorem C8_gp_pred_error (x x_train beta : Mat) (hyp : Hyp) (kern : KernFun)
    (k_inv : Option Mat) (pv : Bool) :
    ((∃ e, gp_pred x kern beta x_train hyp k_inv pv = Except.error e)
      ↔ pv = true ∧ k_inv = none)
    ∧ (pv = false →
        gp_pred x kern beta x_train hyp k_inv pv
          = Except.ok (Mat.mtimes (kern x hyp (some x_train) false) beta, none)) := by
  cases pv with
  | false =>
    refine ⟨⟨?_, ?_⟩, fun _ => gp_pred_no_var x kern beta x_train hyp k_inv⟩
    · rintro ⟨e, he⟩
      rw [gp_pred_no_var] at he
      exact Except.noConfusion he
    · rintro ⟨h, -⟩
      exact absurd h (by decide)
  | true =>
    cases k_inv with
    | none =>
      exact ⟨⟨fun _ => ⟨rfl, rfl⟩, fun _ => ⟨_, rfl⟩⟩, fun h => absurd h (by decide)⟩
    | some k =>
      refine ⟨⟨?_, ?_⟩, fun h => absurd h (by decide)⟩
      · rintro ⟨e, he⟩
        rw [gp_pred_ok_some] at he
        exact Except.noConfusion he
      · rintro ⟨-, h⟩
        exact Option.noConfusion h

theorem C8_gp_pred_error_witness :
    gp_pred (cMat 1 1 0) _k_rbf (cMat 1 1 2) (cMat 1 1 0) cHyp none false
      = Except.ok (Mat.mtimes (_k_rbf (cMat 1 1 0) cHyp (some (cMat 1 1 0)) false)
          (cMat 1 1 2), none)
    ∧ ∃ e, gp_pred (cMat 1 1 0) _k_rbf (cMat 1 1 2) (cMat 1 1 0) cHyp none true
        = Except.error e :=
  ⟨(C8_gp_pred_error (cMat 1 1 0) (cMat 1 1 0) (cMat 1 1 2) cHyp _k_rbf none false).2 rfl,
    (C8_gp_pred_error (cMat 1 1 0) (cMat 1 1 0) (cMat 1 1 2) cHyp _k_rbf none true).1.mpr
      ⟨rfl, rfl⟩⟩

/-- C9: _get_kernel_function returns _k_rbf for the string rbf and
_k_prod_lin_rbf for the string prod_lin_rbf, and raises ValueError for every
other kernel type. -/
theorem C9_get_kernel_function :
    _get_kernel_function "rbf" = Except.ok _k_rbf
    ∧ _get_kernel_function "prod_lin_rbf" = Except.ok _k_prod_lin_rbf
    ∧ ∀ t : String, t ≠ "rbf" → t ≠ "prod_lin_rbf" →
        _get_kernel_function t = Except.error "Unknown kernel type" := by
  refine ⟨rfl, rfl, fun t h1 h2 => ?_⟩
  unfold _get_kernel_function
  rw [if_neg h1, if_neg h2]

theorem C9_get_kernel_function_witness :
    _get_kernel_function "lin" = Except.error "Unknown kernel type" :=
  C9_get_kernel_function.2.2 "lin" (by decide) (by decide)

/-- C10: MultiOutputGP.set_train_data raises NotImplementedError on every
input and never produces an updated model state, so the training data is
left unchanged. -/
theorem C10_set_train_data (model : MultiOutputGPData) (inputs targets : Option Mat)
    (strict : Bool) :
    set_train_data model inputs targets strict
      = Except.error (PyErr.notImplementedError "TODO")
    ∧ ∀ m : MultiOutputGPData, set_train_data model inputs targets strict ≠ Except.ok m :=
  ⟨rfl, fun _ h => Except.noConfusion h⟩

theorem C10_set_train_data_witness :
    set_train_data ⟨Mat.empty, Mat.empty⟩ none none true
      = Except.error (PyErr.notImplementedError "TODO") :=
  (C10_set_train_data ⟨Mat.empty, Mat.empty⟩ none none true).1

/-- C5 (code bug): with jacobians false, GPytorchSSM.predict falls off the
end of the function (the final statement is a bare tuple expression, not a
return), so it yields python None rather than the documented pair
(mean, variance); with jacobians true it does return the four-tuple. -/
theorem C5_predict_missing_return (gp : TorchGP) (stack : Mat → Mat → Mat)
    (cj : (Mat → Mat) → Mat → Mat) (states actions : Mat) (full_cov : Bool) :
    predict gp stack cj states actions false full_cov = none
    ∧ predict gp stack cj states actions true full_cov
        = some (gp.mean (stack states actions), gp.kernel (stack states actions),
            cj gp.mean (stack states actions), cj gp.kernel (stack states actions)) :=
  ⟨rfl, rfl⟩

/-- C6 (code bug): linearize_predict evaluates np.shape(state) first, but the
module never binds np (numpy is not imported) nor state, so every call —
including jacobians true on single-row inputs — raises NameError instead of
returning the documented five-tuple. -/
theorem C6_linearize_predict_raises (gp : TorchGP) (stack : Mat → Mat → Mat)
    (states actions : Mat) (full_cov : Bool) :
    linearize_predict gp stack states actions true full_cov
      = Except.error (PyErr.nameError "name np is not defined")
    ∧ ∀ out, linearize_predict gp stack states actions true full_cov ≠ Except.ok out :=
  ⟨rfl, fun _ h => Except.noConfusion h⟩

theorem C6_linearize_predict_raises_witness :
    linearize_predict ⟨id, id⟩ (fun a _ => a) (cMat 1 1 0) (cMat 1 1 0) true false
      = Except.error (PyErr.nameError "name np is not defined") :=
  (C6_linearize_predict_raises ⟨id, id⟩ (fun a _ => a) (cMat 1 1 0) (cMat 1 1 0) false).1

namespace Mat

theorem horzcat_rows_ne {a b : Mat} (ha : ¬(a.rows = 0 ∧ a.cols = 0))
    (hb : ¬(b.rows = 0 ∧ b.cols = 0)) : (horzcat a b).rows = a.rows := by
  rw [horzcat_of_ne ha hb, of_rows]

theorem horzcat_cols_ne {a b : Mat} (ha : ¬(a.rows = 0 ∧ a.cols = 0))
    (hb : ¬(b.rows = 0 ∧ b.cols = 0)) : (horzcat a b).cols = a.cols + b.cols := by
  rw [horzcat_of_ne ha hb, of_cols]

theorem horzcat_entry_left {a b : Mat} {i j : Nat} (ha : ¬(a.rows = 0 ∧ a.cols = 0))
    (hb : ¬(b.rows = 0 ∧ b.cols = 0)) (hi : i < a.rows) (hj : j < a.cols) :
    (horzcat a b).entry i j = a.entry i j := by
  rw [horzcat_of_ne ha hb,
    of_entry _ hi (lt_of_lt_of_le hj (Nat.le_add_right _ _)), if_pos hj]

theorem horzcat_entry_right {a b : Mat} {i j : Nat} (ha : ¬(a.rows = 0 ∧ a.cols = 0))
    (hb : ¬(b.rows = 0 ∧ b.cols = 0)) (hi : i < a.rows)
    (hj1 : a.cols ≤ j) (hj2 : j < a.cols + b.cols) :
    (horzcat a b).entry i j = b.entry i (j - a.cols) := by
  rw [horzcat_of_ne ha hb, of_entry _ hi hj2, if_neg (Nat.not_lt.mpr hj1)]

theorem vertcat_rows_ne {a b : Mat} (ha : ¬(a.rows = 0 ∧ a.cols = 0))
    (hb : ¬(b.rows = 0 ∧ b.cols = 0)) : (vertcat a b).rows = a.rows + b.rows := by
  rw [vertcat_of_ne ha hb, of_rows]

theorem vertcat_cols_ne {a b : Mat} (ha : ¬(a.rows = 0 ∧ a.cols = 0))
    (hb : ¬(b.rows = 0 ∧ b.cols = 0)) : (vertcat a b).cols = a.cols := by
  rw [vertcat_of_ne ha hb, of_cols]

theorem vertcat_entry_top {a b : Mat} {i j : Nat} (ha : ¬(a.rows = 0 ∧ a.cols = 0))
    (hb : ¬(b.rows = 0 ∧ b.cols = 0)) (hi : i < a.rows) (hj : j < a.cols) :
    (vertcat a b).entry i j = a.entry i j := by
  rw [vertcat_of_ne ha hb,
    of_entry _ (lt_of_lt_of_le hi (Nat.le_add_right _ _)) hj, if_pos hi]

theorem vertcat_entry_bot {a b : Mat} {i j : Nat} (ha : ¬(a.rows = 0 ∧ a.cols = 0))
    (hb : ¬(b.rows = 0 ∧ b.cols = 0)) (hi1 : a.rows ≤ i) (hi2 : i < a.rows + b.rows)
    (hj : j < a.cols) :
    (vertcat a b).entry i j = b.entry (i - a.rows) j := by
  rw [vertcat_of_ne ha hb, of_entry _ hi2 hj, if_neg (Nat.not_lt.mpr hi1)]

end Mat

theorem gpMean_shape (x : Mat) (kern : KernFun) (beta_i x_train : Mat) (hyp : Hyp)
    (hK : (kern x hyp (some x_train) false).rows = x.rows) (hc : beta_i.cols = 1) :
    (gpMean x kern beta_i x_train hyp).rows = x.rows
      ∧ (gpMean x kern beta_i x_train hyp).cols = 1 := by
  unfold gpMean
  exact ⟨by rw [Mat.mtimes_rows, hK], by rw [Mat.mtimes_cols, hc]⟩

theorem gpSigma_shape (x : Mat) (kern : KernFun) (beta_i x_train : Mat) (hyp : Hyp)
    (k_inv : Mat)
    (hK : (kern x hyp (some x_train) false).rows = x.rows)
    (hsq : k_inv.cols = (kern x hyp (some x_train) false).cols)
    (hD : (kern x hyp none true).rows = x.rows)
    (hD1 : (kern x hyp none true).cols = 1) :
    (gpSigma x kern beta_i x_train hyp k_inv).rows = x.rows
      ∧ (gpSigma x kern beta_i x_train hyp k_inv).cols = 1 := by
  unfold gpSigma
  have hs : (Mat.sum2 (Mat.emul (Mat.mtimes (kern x hyp (some x_train) false) k_inv)
      (kern x hyp (some x_train) false))).rows
      = (kern x hyp (some x_train) false).rows := by
    rw [Mat.sum2_rows, Mat.emul_rows (by simp) (by simp [hsq]), Mat.mtimes_rows]
  constructor
  · rw [Mat.esub_rows (by rw [hs, hD, hK]) (by simp [hD1]), hD]
  · rw [Mat.esub_cols (by rw [hs, hD, hK]) (by simp [hD1]), hD1]

theorem gp_step_ok (jaceng : (Mat → Mat) → Mat → Mat) (x x_train beta : Mat)
    (hyps : List Hyp) (kts : List String) (k_inv : Option (List Mat)) (pv cg : Bool)
    (i : Nat) (acc : GPAcc) (t : String) (kern_i : KernFun) (hyp_i : Hyp)
    (kio : Option Mat) (res : Mat × Option Mat)
    (ht : listLookup kts i = Except.ok t)
    (hkt : _get_kernel_function t = Except.ok kern_i)
    (hh : listLookup hyps i = Except.ok hyp_i)
    (hki : kInvLookup k_inv i = Except.ok kio)
    (hres : gp_pred x kern_i (Mat.colOf beta i) x_train hyp_i kio pv = Except.ok res) :
    gp_pred_function_step jaceng x x_train beta hyps kts k_inv pv cg i acc
      = Except.ok { mu := Mat.horzcat acc.mu res.1
                    sigma := Option.elim res.2 acc.sigma fun s => Mat.horzcat s acc.sigma
                    jac := if cg then
                        Mat.vertcat acc.jac
                          (jacBlock jaceng x x_train kern_i hyp_i (Mat.colOf beta i))
                      else acc.jac } := by
  unfold gp_pred_function_step
  rw [ht]
  show Except.bind (_get_kernel_function t) _ = _
  rw [hkt]
  show Except.bind (listLookup hyps i) _ = _
  rw [hh]
  show Except.bind (kInvLookup k_inv i) _ = _
  rw [hki]
  show Except.bind (gp_pred x kern_i (Mat.colOf beta i) x_train hyp_i kio pv) _ = _
  rw [hres]
  cases cg <;> rfl

theorem horzcat_empty_right (a : Mat) (ha : ¬(a.rows = 0 ∧ a.cols = 0)) :
    Mat.horzcat a Mat.empty = a := by
  unfold Mat.horzcat
  rw [if_neg ha, if_pos ⟨Mat.empty_rows, Mat.empty_cols⟩]

/-- Appending one more column to the mean accumulator. -/
theorem horzcat_grow (acc b : Mat) (R n : Nat)
    (hAc : acc.cols = n) (hAr : 0 < n → acc.rows = R) (hA0 : n = 0 → acc = Mat.empty)
    (hbr : b.rows = R) (hbc : b.cols = 1) :
    (Mat.horzcat acc b).cols = n + 1 ∧ (Mat.horzcat acc b).rows = R
    ∧ (∀ r, r < R → (Mat.horzcat acc b).entry r n = b.entry r 0)
    ∧ (∀ j, j < n → ∀ r, r < R → (Mat.horzcat acc b).entry r j = acc.entry r j) := by
  by_cases hn0 : n = 0
  · subst hn0
    rw [hA0 rfl, Mat.horzcat_empty_left]
    exact ⟨by rw [hbc], hbr, fun r _ => rfl, fun j hj => absurd hj (Nat.not_lt_zero j)⟩
  · have hane : ¬(acc.rows = 0 ∧ acc.cols = 0) := by
      rintro ⟨-, h⟩
      rw [hAc] at h
      exact hn0 h
    have hbne : ¬(b.rows = 0 ∧ b.cols = 0) := by
      rintro ⟨-, h⟩
      rw [hbc] at h
      exact one_ne_zero h
    have hpos : 0 < n := Nat.pos_of_ne_zero hn0
    refine ⟨?_, ?_, ?_, ?_⟩
    · rw [Mat.horzcat_cols_ne hane hbne, hAc, hbc]
    · rw [Mat.horzcat_rows_ne hane hbne, hAr hpos]
    · intro r hr
      rw [Mat.horzcat_entry_right hane hbne (by rw [hAr hpos]; exact hr) hAc.le
        (by rw [hAc, hbc]; exact Nat.lt_succ_self n)]
      rw [hAc, Nat.sub_self]
    · intro j hj r hr
      exact Mat.horzcat_entry_left hane hbne (by rw [hAr hpos]; exact hr)
        (by rw [hAc]; exact hj)

/-- Prepending one more column to the variance accumulator, as the source
does with horzcat(pred_sigma, pred_sigma_all). -/
theorem horzcat_prepend (s acc : Mat) (R n : Nat)
    (hAc : acc.cols = n) (hAr : 0 < n → acc.rows = R) (hA0 : n = 0 → acc = Mat.empty)
    (hsr : s.rows = R) (hsc : s.cols = 1) :
    (Mat.horzcat s acc).cols = n + 1 ∧ (Mat.horzcat s acc).rows = R
    ∧ (∀ r, r < R → (Mat.horzcat s acc).entry r 0 = s.entry r 0)
    ∧ (∀ j, j < n → ∀ r, r < R →
        (Mat.horzcat s acc).entry r (j + 1) = acc.entry r j) := by
  have hsne : ¬(s.rows = 0 ∧ s.cols = 0) := by
    rintro ⟨-, h⟩
    rw [hsc] at h
    exact one_ne_zero h
  by_cases hn0 : n = 0
  · subst hn0
    rw [hA0 rfl, horzcat_empty_right s hsne]
    exact ⟨by rw [hsc], hsr, fun r _ => rfl, fun j hj => absurd hj (Nat.not_lt_zero j)⟩
  · have hane : ¬(acc.rows = 0 ∧ acc.cols = 0) := by
      rintro ⟨-, h⟩
      rw [hAc] at h
      exact hn0 h
    have hpos : 0 < n := Nat.pos_of_ne_zero hn0
    refine ⟨?_, ?_, ?_, ?_⟩
    · rw [Mat.horzcat_cols_ne hsne hane, hAc, hsc, Nat.add_comm]
    · rw [Mat.horzcat_rows_ne hsne hane, hsr]
    · intro r hr
      exact Mat.horzcat_entry_left hsne hane (by rw [hsr]; exact hr)
        (by rw [hsc]; exact Nat.one_pos)
    · intro j hj r hr
      rw [Mat.horzcat_entry_right hsne hane (by rw [hsr]; exact hr)
        (by rw [hsc]; exact Nat.le_add_left 1 j)
        (by rw [hsc, hAc]; omega)]
      rw [hsc, Nat.add_sub_cancel]

/-- Appending one more block to the jacobian accumulator. -/
theorem vertcat_grow (acc b : Mat) (q m n : Nat)
    (hAr : acc.rows = n * m) (hAc : 0 < n → acc.cols = q) (hA0 : n = 0 → acc = Mat.empty)
    (hbr : b.rows = m) (hbc : b.cols = q) (hm : 0 < m) (hq : 0 < q) :
    (Mat.vertcat acc b).rows = (n + 1) * m ∧ (Mat.vertcat acc b).cols = q
    ∧ (∀ a c, a < m → c < q → (Mat.vertcat acc b).entry (n * m + a) c = b.entry a c)
    ∧ (∀ j, j < n → ∀ a c, a < m → c < q →
        (Mat.vertcat acc b).entry (j * m + a) c = acc.entry (j * m + a) c) := by
  have hbne : ¬(b.rows = 0 ∧ b.cols = 0) := by
    rintro ⟨h, -⟩
    rw [hbr] at h
    omega
  by_cases hn0 : n = 0
  · subst hn0
    rw [hA0 rfl, Mat.vertcat_empty_left]
    refine ⟨by rw [hbr, Nat.one_mul], hbc, fun a c ha hc => ?_,
      fun j hj => absurd hj (Nat.not_lt_zero j)⟩
    rw [Nat.zero_mul, Nat.zero_add]
  · have hane : ¬(acc.rows = 0 ∧ acc.cols = 0) := by
      rintro ⟨h, -⟩
      rw [hAr] at h
      rcases Nat.mul_eq_zero.mp h with h' | h' <;> omega
    have hpos : 0 < n := Nat.pos_of_ne_zero hn0
    refine ⟨?_, ?_, ?_, ?_⟩
    · rw [Mat.vertcat_rows_ne hane hbne, hAr, hbr, Nat.succ_mul]
    · rw [Mat.vertcat_cols_ne hane hbne, hAc hpos]
    · intro a c ha hc
      rw [Mat.vertcat_entry_bot hane hbne (by rw [hAr]; exact Nat.le_add_right _ _)
        (by rw [hAr, hbr]; omega) (by rw [hAc hpos]; exact hc)]
      rw [hAr, Nat.add_sub_cancel_left]
    · intro j hj a c ha hc
      have hlt : j * m + a < n * m := by
        have h1 : j * m + a < (j + 1) * m := by
          rw [Nat.succ_mul]
          omega
        have h2 : (j + 1) * m ≤ n * m := Nat.mul_le_mul_right m (by omega)
        omega
      exact Mat.vertcat_entry_top hane hbne (by rw [hAr]; exact hlt)
        (by rw [hAc hpos]; exact hc)

/-- Invariant of the gp_pred_function loop: the first n iterations succeed
under well-formed configuration data; the mean columns come out in
increasing GP order, the variance columns in reversed GP order (the source
prepends each new variance column), and the jacobian blocks stacked in
increasing GP order. -/
theorem gp_loop_spec (jaceng : (Mat → Mat) → Mat → Mat) (x x_train beta : Mat)
    (hyps : List Hyp) (kts : List String) (k_inv : Option (List Mat)) (pv cg : Bool)
    (kf : Nat → KernFun) (hp : Nat → Hyp) (kio : Nat → Option Mat) (kim : Nat → Mat)
    (m p : Nat) (n : Nat)
    (H1 : ∀ i, i < n → ∃ t, listLookup kts i = Except.ok t
        ∧ _get_kernel_function t = Except.ok (kf i))
    (H2 : ∀ i, i < n → listLookup hyps i = Except.ok (hp i))
    (H3 : ∀ i, i < n → kInvLookup k_inv i = Except.ok (kio i))
    (H4 : pv = true → ∀ i, i < n → kio i = some (kim i))
    (H5 : ∀ i, i < n → (kf i x (hp i) (some x_train) false).rows = x.rows)
    (H6 : pv = true → ∀ i, i < n →
        (kim i).cols = (kf i x (hp i) (some x_train) false).cols)
    (H7 : pv = true → ∀ i, i < n → (kf i x (hp i) none true).rows = x.rows
        ∧ (kf i x (hp i) none true).cols = 1) :
    ∃ acc, gp_pred_function_loop jaceng x x_train beta hyps kts k_inv pv cg n
        = Except.ok acc
      ∧ (n = 0 → acc = ⟨Mat.empty, Mat.empty, Mat.empty⟩)
      ∧ acc.mu.cols = n ∧ (0 < n → acc.mu.rows = x.rows)
      ∧ (∀ j, j < n → ∀ r, r < x.rows →
          acc.mu.entry r j
            = (gpMean x (kf j) (Mat.colOf beta j) x_train (hp j)).entry r 0)
      ∧ (pv = true → acc.sigma.cols = n ∧ (0 < n → acc.sigma.rows = x.rows)
          ∧ ∀ j, j < n → ∀ r, r < x.rows →
              acc.sigma.entry r j
                = (gpSigma x (kf (n - 1 - j)) (Mat.colOf beta (n - 1 - j)) x_train
                    (hp (n - 1 - j)) (kim (n - 1 - j))).entry r 0)
      ∧ (pv = false → acc.sigma = Mat.empty)
      ∧ (cg = true → 0 < m → 0 < p →
          (∀ i, i < n →
            (jacBlock jaceng x x_train (kf i) (hp i) (Mat.colOf beta i)).rows = m
            ∧ (jacBlock jaceng x x_train (kf i) (hp i) (Mat.colOf beta i)).cols = p) →
          acc.jac.rows = n * m ∧ (0 < n → acc.jac.cols = p)
          ∧ ∀ j, j < n → ∀ a c, a < m → c < p →
              acc.jac.entry (j * m + a) c
                = (jacBlock jaceng x x_train (kf j) (hp j) (Mat.colOf beta j)).entry a c)
      ∧ (cg = false → acc.jac = Mat.empty) := by
  induction n with
  | zero =>
    refine ⟨⟨Mat.empty, Mat.empty, Mat.empty⟩, rfl, fun _ => rfl, rfl,
      fun h => absurd h (by decide), fun j hj => absurd hj (Nat.not_lt_zero j),
      fun _ => ⟨rfl, fun h => absurd h (by decide), fun j hj => absurd hj (Nat.not_lt_zero j)⟩,
      fun _ => rfl,
      fun _ _ _ _ => ⟨by simp, fun h => absurd h (by decide),
        fun j hj => absurd hj (Nat.not_lt_zero j)⟩,
      fun _ => rfl⟩
  | succ n ih =>
    have hlt : ∀ i, i < n → i < n + 1 := fun i hi => hi.trans (Nat.lt_succ_self n)
    obtain ⟨acc, hacc, A0, A1, A2, A3, A4, A5, A6, A7⟩ :=
      ih (fun i hi => H1 i (hlt i hi)) (fun i hi => H2 i (hlt i hi))
        (fun i hi => H3 i (hlt i hi)) (fun hpv i hi => H4 hpv i (hlt i hi))
        (fun i hi => H5 i (hlt i hi)) (fun hpv i hi => H6 hpv i (hlt i hi))
        (fun hpv i hi => H7 hpv i (hlt i hi))
    have hn : n < n + 1 := Nat.lt_succ_self n
    obtain ⟨t, ht, hkt⟩ := H1 n hn
    have hres : ∃ res : Mat × Option Mat,
        gp_pred x (kf n) (Mat.colOf beta n) x_train (hp n) (kio n) pv = Except.ok res
          ∧ res.1 = gpMean x (kf n) (Mat.colOf beta n) x_train (hp n)
          ∧ (pv = true →
              res.2 = some (gpSigma x (kf n) (Mat.colOf beta n) x_train (hp n) (kim n)))
          ∧ (pv = false → res.2 = none) := by
      cases pv with
      | true =>
        rw [H4 rfl n hn]
        exact ⟨_, gp_pred_ok_some x (kf n) (Mat.colOf beta n) x_train (hp n) (kim n),
          rfl, fun _ => rfl, fun h => absurd h (by decide)⟩
      | false =>
        exact ⟨_, gp_pred_no_var x (kf n) (Mat.colOf beta n) x_train (hp n) (kio n),
          rfl, fun h => absurd h (by decide), fun _ => rfl⟩
    obtain ⟨res, hres, hres1, hres2T, hres2F⟩ := hres
    have hstep := gp_step_ok jaceng x x_train beta hyps kts k_inv pv cg n acc t (kf n)
      (hp n) (kio n) res ht hkt (H2 n hn) (H3 n hn) hres
    have hμshape := gpMean_shape x (kf n) (Mat.colOf beta n) x_train (hp n) (H5 n hn)
      (Mat.colOf_cols beta n)
    have hμg := horzcat_grow acc.mu res.1 x.rows n A1 A2
      (fun h => congrArg GPAcc.mu (A0 h)) (by rw [hres1, hμshape.1])
      (by rw [hres1, hμshape.2])
    refine ⟨{ mu := Mat.horzcat acc.mu res.1
              sigma := Option.elim res.2 acc.sigma fun s => Mat.horzcat s acc.sigma
              jac := if cg then
                  Mat.vertcat acc.jac
                    (jacBlock jaceng x x_train (kf n) (hp n) (Mat.colOf beta n))
                else acc.jac },
      ?_, fun h => absurd h (Nat.succ_ne_zero n), hμg.1, fun _ => hμg.2.1,
      ?_, ?_, ?_, ?_, ?_⟩
    · rw [gp_pred_function_loop, hacc]
      exact hstep
    · intro j hj r hr
      rcases Nat.lt_succ_iff_lt_or_eq.mp hj with hj' | rfl
      · rw [hμg.2.2.2 j hj' r hr]
        exact A3 j hj' r hr
      · rw [hμg.2.2.1 r hr, hres1]
    · intro hpv
      obtain ⟨S1, S2, S3⟩ := A4 hpv
      have hσshape := gpSigma_shape x (kf n) (Mat.colOf beta n) x_train (hp n) (kim n)
        (H5 n hn) (H6 hpv n hn) (H7 hpv n hn).1 (H7 hpv n hn).2
      have hσg := horzcat_prepend
        (gpSigma x (kf n) (Mat.colOf beta n) x_train (hp n) (kim n)) acc.sigma x.rows n
        S1 S2 (fun h => congrArg GPAcc.sigma (A0 h)) hσshape.1 hσshape.2
      simp only [hres2T hpv, Option.elim]
      refine ⟨hσg.1, fun _ => hσg.2.1, ?_⟩
      intro j hj r hr
      cases j with
      | zero =>
        rw [hσg.2.2.1 r hr]
        have harith : n + 1 - 1 - 0 = n := by omega
        rw [harith]
      | succ j' =>
        have hj' : j' < n := by omega
        rw [hσg.2.2.2 j' hj' r hr]
        have harith : n + 1 - 1 - (j' + 1) = n - 1 - j' := by omega
        rw [harith]
        exact S3 j' hj' r hr
    · intro hpv
      simp only [hres2F hpv, Option.elim]
      exact A5 hpv
    · intro hcg hm hq hblocks
      have hb := hblocks n hn
      have A6' := A6 hcg hm hq fun i hi => hblocks i (hlt i hi)
      have hjg := vertcat_grow acc.jac
        (jacBlock jaceng x x_train (kf n) (hp n) (Mat.colOf beta n)) p m n
        A6'.1 A6'.2.1 (fun h => congrArg GPAcc.jac (A0 h)) hb.1 hb.2 hm hq
      simp only [if_pos hcg]
      refine ⟨hjg.1, fun _ => hjg.2.1, ?_⟩
      intro j hj a c ha hc
      rcases Nat.lt_succ_iff_lt_or_eq.mp hj with hj' | rfl
      · rw [hjg.2.2.2 j hj' a c ha hc]
        exact A6'.2.2 j hj' a c ha hc
      · exact hjg.2.2.1 a c ha hc
    · intro hcg
      simp only [hcg, Bool.false_eq_true, if_false]
      exact A7 hcg

theorem gp_pred_function_ok (jaceng : (Mat → Mat) → Mat → Mat) (x x_train beta : Mat)
    (hyps : List Hyp) (kts : List String) (k_inv : Option (List Mat)) (pv cg : Bool)
    (acc : GPAcc)
    (h : gp_pred_function_loop jaceng x x_train beta hyps kts k_inv pv cg beta.cols
        = Except.ok acc) :
    gp_pred_function jaceng x x_train beta hyps kts k_inv pv cg
      = Except.ok ⟨acc.mu, if pv then some acc.sigma else none,
          if cg then some acc.jac else none⟩ := by
  unfold gp_pred_function
  show Except.bind
    (gp_pred_function_loop jaceng x x_train beta hyps kts k_inv pv cg beta.cols) _ = _
  rw [h]
  rfl

/-- C3 (amended): with pred_var true and a well-formed configuration,
gp_pred_function returns a dictionary in which column i of pred_mu is the
posterior mean of the i-th single-output GP (built from kern_types[i],
beta[:, i], hyp[i]); but the variance columns are accumulated by prepending
(line 153 concatenates the new column on the left), so column i of
pred_sigma is the posterior variance of GP number n_gps - 1 - i, not of
GP i. -/
theorem C3_gp_pred_function_amended (jaceng : (Mat → Mat) → Mat → Mat)
    (x x_train beta : Mat) (hyps : List Hyp) (kts : List String) (kil : List Mat)
    (cg : Bool) (kf : Nat → KernFun) (hp : Nat → Hyp) (kim : Nat → Mat)
    (H1 : ∀ i, i < beta.cols → ∃ t, listLookup kts i = Except.ok t
        ∧ _get_kernel_function t = Except.ok (kf i))
    (H2 : ∀ i, i < beta.cols → listLookup hyps i = Except.ok (hp i))
    (H3 : ∀ i, i < beta.cols → kInvLookup (some kil) i = Except.ok (some (kim i)))
    (H5 : ∀ i, i < beta.cols → (kf i x (hp i) (some x_train) false).rows = x.rows)
    (H6 : ∀ i, i < beta.cols →
        (kim i).cols = (kf i x (hp i) (some x_train) false).cols)
    (H7 : ∀ i, i < beta.cols → (kf i x (hp i) none true).rows = x.rows
        ∧ (kf i x (hp i) none true).cols = 1) :
    ∃ out, gp_pred_function jaceng x x_train beta hyps kts (some kil) true cg
        = Except.ok out
      ∧ ∃ S, out.pred_sigma = some S
        ∧ (∀ i, i < beta.cols →
            gp_pred x (kf i) (Mat.colOf beta i) x_train (hp i) (some (kim i)) true
              = Except.ok (gpMean x (kf i) (Mat.colOf beta i) x_train (hp i),
                  some (gpSigma x (kf i) (Mat.colOf beta i) x_train (hp i) (kim i))))
        ∧ (∀ i, i < beta.cols → ∀ r, r < x.rows →
            out.pred_mu.entry r i
              = (gpMean x (kf i) (Mat.colOf beta i) x_train (hp i)).entry r 0)
        ∧ (∀ i, i < beta.cols → ∀ r, r < x.rows →
            S.entry r i
              = (gpSigma x (kf (beta.cols - 1 - i)) (Mat.colOf beta (beta.cols - 1 - i))
                  x_train (hp (beta.cols - 1 - i)) (kim (beta.cols - 1 - i))).entry r 0) := by
  obtain ⟨acc, hacc, A0, A1, A2, A3, A4, A5, A6, A7⟩ :=
    gp_loop_spec jaceng x x_train beta hyps kts (some kil) true cg kf hp
      (fun i => some (kim i)) kim 0 0 beta.cols H1 H2 H3 (fun _ i hi => rfl) H5
      (fun _ => H6) (fun _ => H7)
  refine ⟨⟨acc.mu, some acc.sigma, if cg then some acc.jac else none⟩,
    gp_pred_function_ok jaceng x x_train beta hyps kts (some kil) true cg acc hacc,
    acc.sigma, rfl,
    fun i _ => gp_pred_ok_some x (kf i) (Mat.colOf beta i) x_train (hp i) (kim i),
    A3, (A4 rfl).2.2⟩

/-- C7: with compute_grads true, gp_pred_function returns a dictionary
containing jac_mu, the vertical stacking in output order i = 0 .. n_gps - 1
of the jacobian (produced by the external autodiff engine) of the i-th
predicted mean with respect to the prediction input. -/
theorem C7_jac_mu (jaceng : (Mat → Mat) → Mat → Mat) (x x_train beta : Mat)
    (hyps : List Hyp) (kts : List String) (k_inv : Option (List Mat)) (pv : Bool)
    (kf : Nat → KernFun) (hp : Nat → Hyp) (kio : Nat → Option Mat) (kim : Nat → Mat)
    (m p : Nat)
    (H1 : ∀ i, i < beta.cols → ∃ t, listLookup kts i = Except.ok t
        ∧ _get_kernel_function t = Except.ok (kf i))
    (H2 : ∀ i, i < beta.cols → listLookup hyps i = Except.ok (hp i))
    (H3 : ∀ i, i < beta.cols → kInvLookup k_inv i = Except.ok (kio i))
    (H4 : pv = true → ∀ i, i < beta.cols → kio i = some (kim i))
    (H5 : ∀ i, i < beta.cols → (kf i x (hp i) (some x_train) false).rows = x.rows)
    (H6 : pv = true → ∀ i, i < beta.cols →
        (kim i).cols = (kf i x (hp i) (some x_train) false).cols)
    (H7 : pv = true → ∀ i, i < beta.cols → (kf i x (hp i) none true).rows = x.rows
        ∧ (kf i x (hp i) none true).cols = 1)
    (hm : 0 < m) (hq : 0 < p)
    (HB : ∀ i, i < beta.cols →
        (jacBlock jaceng x x_train (kf i) (hp i) (Mat.colOf beta i)).rows = m
        ∧ (jacBlock jaceng x x_train (kf i) (hp i) (Mat.colOf beta i)).cols = p) :
    ∃ out, gp_pred_function jaceng x x_train beta hyps kts k_inv pv true
        = Except.ok out
      ∧ ∃ J, out.jac_mu = some J
        ∧ J.rows = beta.cols * m ∧ (0 < beta.cols → J.cols = p)
        ∧ ∀ i, i < beta.cols → ∀ a c, a < m → c < p →
            J.entry (i * m + a) c
              = (jacBlock jaceng x x_train (kf i) (hp i) (Mat.colOf beta i)).entry a c := by
  obtain ⟨acc, hacc, A0, A1, A2, A3, A4, A5, A6, A7⟩ :=
    gp_loop_spec jaceng x x_train beta hyps kts k_inv pv true kf hp kio kim m p
      beta.cols H1 H2 H3 H4 H5 H6 H7
  obtain ⟨J1, J2, J3⟩ := A6 rfl hm hq HB
  exact ⟨⟨acc.mu, if pv then some acc.sigma else none, some acc.jac⟩,
    gp_pred_function_ok jaceng x x_train beta hyps kts k_inv pv true acc hacc,
    acc.jac, rfl, J1, J2, J3⟩

/-- A second concrete hyperparameter set with rbf variance 2. -/
def cHyp2 : Hyp := ⟨cMat 1 1 1, 2, cMat 1 1 1⟩

/-- The pred_sigma matrix of a gp_pred_function result (empty on error or
when absent). -/
noncomputable def sigmaOfOut (e : Except String GPOut) : Mat :=
  match e with
  | Except.ok out => out.pred_sigma.getD Mat.empty
  | Except.error _ => Mat.empty

/-- On the one-point zero data set with unit lengthscale and inverted kernel
matrix equal to 1, the posterior variance of an RBF GP with variance s
evaluates to s - s * s. -/
theorem ce_var_value (H : Hyp) (hl : H.rbf_lengthscales.rows = 1)
    (hc : H.rbf_lengthscales.cols = 1) (b : Mat) :
    (gpSigma (cMat 1 1 0) _k_rbf b (cMat 1 1 0) H (cMat 1 1 1)).entry 0 0
      = H.rbf_variance - H.rbf_variance * H.rbf_variance := by
  have hx : (cMat 1 1 0).cols = H.rbf_lengthscales.cols := by rw [hc]; rfl
  have hK := k_rbf_full_rows (cMat 1 1 0) (cMat 1 1 0) H hl hx hx
  have hKc := k_rbf_full_cols (cMat 1 1 0) (cMat 1 1 0) H hl hx hx
  have hKc1 : (_k_rbf (cMat 1 1 0) H (some (cMat 1 1 0)) false).cols = 1 := by
    rw [hKc]; rfl
  have hKr1 : (_k_rbf (cMat 1 1 0) H (some (cMat 1 1 0)) false).rows = 1 := by
    rw [hK]; rfl
  have hsq : (cMat 1 1 1).cols = (_k_rbf (cMat 1 1 0) H (some (cMat 1 1 0)) false).cols := by
    rw [hKc1]; rfl
  rw [gpSigma_entry (cMat 1 1 0) _k_rbf b (cMat 1 1 0) H (cMat 1 1 1) hK hsq rfl rfl
    Nat.one_pos]
  have hDval : (_k_rbf (cMat 1 1 0) H none true).entry 0 0 = H.rbf_variance := by
    rw [k_rbf_diag_eq]
    exact Mat.of_entry _ Nat.one_pos Nat.one_pos
  have hKval : (_k_rbf (cMat 1 1 0) H (some (cMat 1 1 0)) false).entry 0 0
      = H.rbf_variance := by
    rw [k_rbf_some_eq,
      k_rbf_body_entry (cMat 1 1 0) (cMat 1 1 0) H hl hx hx Nat.one_pos Nat.one_pos]
    simp [sub_self]
  have hMK : (Mat.mtimes (_k_rbf (cMat 1 1 0) H (some (cMat 1 1 0)) false)
      (cMat 1 1 1)).entry 0 0 = H.rbf_variance := by
    rw [Mat.mtimes_entry (by rw [hKr1]; exact Nat.one_pos) Nat.one_pos]
    rw [hKc1, Finset.sum_range_one, hKval]
    have h1 : (cMat 1 1 1).entry 0 0 = 1 := Mat.of_entry _ Nat.one_pos Nat.one_pos
    rw [h1, mul_one]
  have htriple : (Mat.mtimes
      (Mat.mtimes (_k_rbf (cMat 1 1 0) H (some (cMat 1 1 0)) false) (cMat 1 1 1))
      (Mat.transpose (_k_rbf (cMat 1 1 0) H (some (cMat 1 1 0)) false))).entry 0 0
      = H.rbf_variance * H.rbf_variance := by
    rw [Mat.mtimes_entry (by rw [Mat.mtimes_rows, hKr1]; exact Nat.one_pos)
      (by rw [Mat.transpose_cols, hKr1]; exact Nat.one_pos)]
    simp only [Mat.mtimes_cols]
    have hcols : (cMat (1 : Nat) 1 1).cols = 1 := rfl
    rw [hcols, Finset.sum_range_one, hMK]
    rw [Mat.transpose_entry (by rw [hKc1]; exact Nat.one_pos) (by rw [hKr1]; exact Nat.one_pos)]
    rw [hKval]
  rw [hDval, htriple]

/-- C3 counterexample: a two-output configuration (rbf variances 1 and 2, a
single zero training point, unit inverse kernel matrices) in which entry
(0, 0) of pred_sigma is -2, the variance of GP 1, while the variance of GP 0
is 0: column 0 of pred_sigma is not the variance of GP 0. -/
theorem C3_counterexample :
    (sigmaOfOut (gp_pred_function (fun _ _ => Mat.empty) (cMat 1 1 0) (cMat 1 1 0)
        (cMat 1 2 1) [cHyp, cHyp2] ["rbf", "rbf"]
        (some [cMat 1 1 1, cMat 1 1 1]) true false)).entry 0 0
      ≠ (gpSigma (cMat 1 1 0) _k_rbf (Mat.colOf (cMat 1 2 1) 0) (cMat 1 1 0) cHyp
          (cMat 1 1 1)).entry 0 0 := by
  obtain ⟨out, hout, S, hS, hpred, hmu, hsig⟩ :=
    C3_gp_pred_function_amended (fun _ _ => Mat.empty) (cMat 1 1 0) (cMat 1 1 0)
      (cMat 1 2 1) [cHyp, cHyp2] ["rbf", "rbf"] [cMat 1 1 1, cMat 1 1 1] false
      (fun _ => _k_rbf) (fun i => if i = 0 then cHyp else cHyp2) (fun _ => cMat 1 1 1)
      (fun i hi => by
        have h2 : i < 2 := hi
        interval_cases i <;> exact ⟨"rbf", rfl, rfl⟩)
      (fun i hi => by
        have h2 : i < 2 := hi
        interval_cases i <;> rfl)
      (fun i hi => by
        have h2 : i < 2 := hi
        interval_cases i <;> rfl)
      (fun i hi => by
        have h2 : i < 2 := hi
        interval_cases i
        · exact k_rbf_full_rows (cMat 1 1 0) (cMat 1 1 0) cHyp rfl rfl rfl
        · exact k_rbf_full_rows (cMat 1 1 0) (cMat 1 1 0) cHyp2 rfl rfl rfl)
      (fun i hi => by
        have h2 : i < 2 := hi
        interval_cases i
        · show (cMat 1 1 1).cols
            = (_k_rbf (cMat 1 1 0) cHyp (some (cMat 1 1 0)) false).cols
          rw [k_rbf_full_cols (cMat 1 1 0) (cMat 1 1 0) cHyp rfl rfl rfl]
          rfl
        · show (cMat 1 1 1).cols
            = (_k_rbf (cMat 1 1 0) cHyp2 (some (cMat 1 1 0)) false).cols
          rw [k_rbf_full_cols (cMat 1 1 0) (cMat 1 1 0) cHyp2 rfl rfl rfl]
          rfl)
      (fun i _ => ⟨rfl, rfl⟩)
  have hval : sigmaOfOut (gp_pred_function (fun _ _ => Mat.empty) (cMat 1 1 0)
      (cMat 1 1 0) (cMat 1 2 1) [cHyp, cHyp2] ["rbf", "rbf"]
      (some [cMat 1 1 1, cMat 1 1 1]) true false) = S := by
    rw [hout]
    show out.pred_sigma.getD Mat.empty = S
    rw [hS]
    rfl
  rw [hval]
  have h00 : S.entry 0 0 = (gpSigma (cMat 1 1 0) _k_rbf (Mat.colOf (cMat 1 2 1) 1)
      (cMat 1 1 0) cHyp2 (cMat 1 1 1)).entry 0 0 := hsig 0 (by decide) 0 (by decide)
  rw [h00, ce_var_value cHyp2 rfl rfl, ce_var_value cHyp rfl rfl]
  norm_num [cHyp, cHyp2]

theorem C3_gp_pred_function_amended_witness :
    ∃ out, gp_pred_function (fun _ _ => Mat.empty) (cMat 1 1 0) (cMat 1 1 0) (cMat 1 1 2)
        [cHyp] ["rbf"] (some [cMat 1 1 1]) true false = Except.ok out
      ∧ ∃ S, out.pred_sigma = some S
        ∧ (∀ i, i < (cMat 1 1 2).cols →
            gp_pred (cMat 1 1 0) _k_rbf (Mat.colOf (cMat 1 1 2) i) (cMat 1 1 0) cHyp
                (some (cMat 1 1 1)) true
              = Except.ok (gpMean (cMat 1 1 0) _k_rbf (Mat.colOf (cMat 1 1 2) i)
                  (cMat 1 1 0) cHyp,
                  some (gpSigma (cMat 1 1 0) _k_rbf (Mat.colOf (cMat 1 1 2) i)
                    (cMat 1 1 0) cHyp (cMat 1 1 1))))
        ∧ (∀ i, i < (cMat 1 1 2).cols → ∀ r, r < (cMat 1 1 0).rows →
            out.pred_mu.entry r i
              = (gpMean (cMat 1 1 0) _k_rbf (Mat.colOf (cMat 1 1 2) i) (cMat 1 1 0)
                  cHyp).entry r 0)
        ∧ (∀ i, i < (cMat 1 1 2).cols → ∀ r, r < (cMat 1 1 0).rows →
            S.entry r i
              = (gpSigma (cMat 1 1 0) _k_rbf
                  (Mat.colOf (cMat 1 1 2) ((cMat 1 1 2).cols - 1 - i)) (cMat 1 1 0)
                  cHyp (cMat 1 1 1)).entry r 0) :=
  C3_gp_pred_function_amended (fun _ _ => Mat.empty) (cMat 1 1 0) (cMat 1 1 0)
    (cMat 1 1 2) [cHyp] ["rbf"] [cMat 1 1 1] false (fun _ => _k_rbf) (fun _ => cHyp)
    (fun _ => cMat 1 1 1)
    (fun i hi => by
      have h1 : i < 1 := hi
      interval_cases i
      exact ⟨"rbf", rfl, rfl⟩)
    (fun i hi => by
      have h1 : i < 1 := hi
      interval_cases i
      rfl)
    (fun i hi => by
      have h1 : i < 1 := hi
      interval_cases i
      rfl)
    (fun i _ => k_rbf_full_rows (cMat 1 1 0) (cMat 1 1 0) cHyp rfl rfl rfl)
    (fun i _ => by
      rw [k_rbf_full_cols (cMat 1 1 0) (cMat 1 1 0) cHyp rfl rfl rfl]
      rfl)
    (fun i _ => ⟨rfl, rfl⟩)

theorem C7_jac_mu_witness :
    ∃ out, gp_pred_function (fun _ _ => cMat 1 1 0) (cMat 1 1 0) (cMat 1 1 0)
        (cMat 1 1 2) [cHyp] ["rbf"] (some [cMat 1 1 1]) true true = Except.ok out
      ∧ ∃ J, out.jac_mu = some J
        ∧ J.rows = (cMat 1 1 2).cols * 1 ∧ (0 < (cMat 1 1 2).cols → J.cols = 1)
        ∧ ∀ i, i < (cMat 1 1 2).cols → ∀ a c, a < 1 → c < 1 →
            J.entry (i * 1 + a) c
              = (jacBlock (fun _ _ => cMat 1 1 0) (cMat 1 1 0) (cMat 1 1 0) _k_rbf cHyp
                  (Mat.colOf (cMat 1 1 2) i)).entry a c :=
  C7_jac_mu (fun _ _ => cMat 1 1 0) (cMat 1 1 0) (cMat 1 1 0) (cMat 1 1 2) [cHyp]
    ["rbf"] (some [cMat 1 1 1]) true (fun _ => _k_rbf) (fun _ => cHyp)
    (fun _ => some (cMat 1 1 1)) (fun _ => cMat 1 1 1) 1 1
    (fun i hi => by
      have h1 : i < 1 := hi
      interval_cases i
      exact ⟨"rbf", rfl, rfl⟩)
    (fun i hi => by
      have h1 : i < 1 := hi
      interval_cases i
      rfl)
    (fun i hi => by
      have h1 : i < 1 := hi
      interval_cases i
      rfl)
    (fun _ i _ => rfl)
    (fun i _ => k_rbf_full_rows (cMat 1 1 0) (cMat 1 1 0) cHyp rfl rfl rfl)
    (fun _ i _ => by
      rw [k_rbf_full_cols (cMat 1 1 0) (cMat 1 1 0) cHyp rfl rfl rfl]
      rfl)
    (fun _ i _ => ⟨rfl, rfl⟩) Nat.one_pos Nat.one_pos
    (fun i _ => ⟨rfl, rfl⟩)
